import Mathlib

/-!
Verification of the download-manager core against its specification.

This file shallowly embeds the data model and the operations of the
repository (src/core/download_task.py, src/core/download_engine.py,
src/core/download_manager.py, src/core/scheduler.py,
src/filesystem/file_manager.py, src/network/http_client.py) as executable
Lean definitions, and proves or refutes the frozen claims about them.

Conventions of the embedding:
* Python `int` is `Int`; Python `//` (floor division) is `Int.fdiv`.
* Python `float` timestamps and speeds are modelled as `Int`: none of the
  verified operations perform non-trivial real arithmetic on them, they are
  only stored, compared and copied.
* Python `None`-able fields are `Option`; Python falsiness of a string is
  emptiness, of a number is being zero, of an optional is `none` (or the
  falsy value inside `some`).
* Exceptions are modelled with `Option`/`Bool` results.
* `queue.PriorityQueue` and the scheduler heap both sit on CPython's
  `heapq`; `heapq.heappush`, `heapq.heappop` and `heapq.heapify`
  (including the exact `_siftdown`/`_siftup` loops of the stdlib) are
  embedded below, generically in the element comparison, because the
  claims about dequeue order depend on their precise behaviour.
-/

/-- Enumeration `DownloadStatus` from src/core/download_task.py. -/
inductive DownloadStatus where
  | PENDING
  | DOWNLOADING
  | PAUSED
  | COMPLETED
  | ERROR
  | CANCELLED
  | QUEUED
deriving DecidableEq

/-- The string payload of each enum member (`status.value` in Python). -/
def DownloadStatus.value : DownloadStatus → String
  | .PENDING => "pending"
  | .DOWNLOADING => "downloading"
  | .PAUSED => "paused"
  | .COMPLETED => "completed"
  | .ERROR => "error"
  | .CANCELLED => "cancelled"
  | .QUEUED => "queued"

/-- Enum lookup `DownloadStatus(s)`: `some` member with that value, else
`none` (Python raises `ValueError`). -/
def DownloadStatus.ofValue (s : String) : Option DownloadStatus :=
  if s = "pending" then some .PENDING
  else if s = "downloading" then some .DOWNLOADING
  else if s = "paused" then some .PAUSED
  else if s = "completed" then some .COMPLETED
  else if s = "error" then some .ERROR
  else if s = "cancelled" then some .CANCELLED
  else if s = "queued" then some .QUEUED
  else none

/-- Dataclass `DownloadPart` from src/core/download_task.py. -/
structure DownloadPart where
  part_number : Int
  start_byte : Int
  end_byte : Int
  downloaded_bytes : Int := 0
  status : DownloadStatus := .PENDING
  temp_file_path : Option String := none
deriving DecidableEq

/-- Class `DownloadTask` from src/core/download_task.py: all instance
fields set by `__init__`. -/
structure DownloadTask where
  id : String
  url : String
  filename : String
  destination : Option String
  file_size : Int := 0
  downloaded_bytes : Int := 0
  status : DownloadStatus := .PENDING
  created_at : Int := 0
  started_at : Option Int := none
  completed_at : Option Int := none
  error_message : Option String := none
  retry_count : Int := 0
  max_retries : Int := 3
  supports_range_requests : Bool := false
  parts : List DownloadPart := []
  num_threads : Int := 1
  download_speed : Int := 0
  eta : Int := 0
  progress_percentage : Int := 0
  content_type : Option String := none
  headers : List (String × String) := []
  checksum : Option String := none
  is_video : Bool := false
  video_quality : Option String := none
  scheduled_time : Option Int := none
  priority : Int := 0
deriving DecidableEq

instance : Inhabited DownloadTask :=
  ⟨{ id := "", url := "", filename := "", destination := none }⟩

/-- One mebibyte, the 1024*1024 literal of `_setup_download`
(src/core/download_engine.py). -/
def mib : Int := 1024 * 1024

/-- Step "plan parts" of `DownloadEngine._setup_download`
(src/core/download_engine.py lines 176-183): the number of worker threads
chosen for a task, given `max_threads = settings.get('max_threads_per_download', 8)`. -/
def plan_num_threads (max_threads : Int) (supports_range_requests : Bool)
    (file_size : Int) : Int :=
  if supports_range_requests = true ∧ mib < file_size then
    min max_threads (max 1 (Int.fdiv file_size mib))
  else 1

/-- The parts list built by `DownloadTask.setup_multithread_download`
(src/core/download_task.py lines 161-182). -/
def setup_multithread_parts (num_threads file_size : Int) : List DownloadPart :=
  if num_threads ≤ 1 then
    [{ part_number := 0, start_byte := 0, end_byte := file_size - 1 }]
  else
    let part_size := Int.fdiv file_size num_threads
    (List.range num_threads.toNat).map fun (i : Nat) =>
      let start_byte := (i : Int) * part_size
      let end_byte :=
        if (i : Int) = num_threads - 1 then file_size - 1
        else start_byte + part_size - 1
      { part_number := (i : Int), start_byte := start_byte, end_byte := end_byte }

/-- Composition of the part-planning step of `_setup_download` with
`setup_multithread_download`: the parts a task ends up with. -/
def planParts (max_threads : Int) (supports_range_requests : Bool)
    (file_size : Int) : List DownloadPart :=
  setup_multithread_parts
    (plan_num_threads max_threads supports_range_requests file_size) file_size

/-- The shape of the HTTP request a part worker issues.
`HTTPClient.download_range` (src/network/http_client.py lines 69-100) sends
a `Range: bytes=start-end` header; `HTTPClient.download_full` (lines
102-122) sends a plain GET with no `Range` header. -/
inductive HTTPRequest where
  | rangeReq (start_byte end_byte : Int)
  | fullReq
deriving DecidableEq

/-- Request selection of `DownloadEngine._download_part`
(src/core/download_engine.py lines 240-267): `none` when the part is
already full (marked Completed, no request); otherwise a range request
only when the task supports ranges AND has more than one part, else a
full download. -/
def downloadPartRequest (supports_range_requests : Bool) (num_parts : Nat)
    (part : DownloadPart) : Option HTTPRequest :=
  let resume_position := part.downloaded_bytes
  let start_byte := part.start_byte + resume_position
  if part.end_byte < start_byte then none
  else if supports_range_requests = true ∧ 1 < num_parts then
    some (.rangeReq start_byte part.end_byte)
  else
    some .fullReq

/-- The dictionary produced by `DownloadTask.to_dict`
(src/core/download_task.py lines 192-220): every key is always present,
`status` is stored as its string value. -/
structure TaskDict where
  id : String
  url : String
  filename : String
  destination : Option String
  file_size : Int
  downloaded_bytes : Int
  status : String
  created_at : Int
  started_at : Option Int
  completed_at : Option Int
  error_message : Option String
  retry_count : Int
  max_retries : Int
  supports_range_requests : Bool
  num_threads : Int
  download_speed : Int
  eta : Int
  progress_percentage : Int
  content_type : Option String
  headers : List (String × String)
  checksum : Option String
  is_video : Bool
  video_quality : Option String
  scheduled_time : Option Int
  priority : Int
deriving DecidableEq

/-- `DownloadTask.to_dict` (src/core/download_task.py lines 192-220). -/
def DownloadTask.to_dict (t : DownloadTask) : TaskDict where
  id := t.id
  url := t.url
  filename := t.filename
  destination := t.destination
  file_size := t.file_size
  downloaded_bytes := t.downloaded_bytes
  status := t.status.value
  created_at := t.created_at
  started_at := t.started_at
  completed_at := t.completed_at
  error_message := t.error_message
  retry_count := t.retry_count
  max_retries := t.max_retries
  supports_range_requests := t.supports_range_requests
  num_threads := t.num_threads
  download_speed := t.download_speed
  eta := t.eta
  progress_percentage := t.progress_percentage
  content_type := t.content_type
  headers := t.headers
  checksum := t.checksum
  is_video := t.is_video
  video_quality := t.video_quality
  scheduled_time := t.scheduled_time
  priority := t.priority

/-- `DownloadTask.from_dict` (src/core/download_task.py lines 222-248).
The constructor call `cls(url, filename, destination)` keeps the given
filename when it is truthy and otherwise derives one from the URL via
`_extract_filename_from_url` (urllib-based, abstracted here as the
parameter `extract`); every other field is then overwritten from the
dictionary. `DownloadStatus(status)` raises on an unknown value, modelled
by returning `none`. The in-memory `parts` list is reset by the
constructor and never restored from the dictionary. -/
def DownloadTask.from_dict (extract : String → String) (d : TaskDict) :
    Option DownloadTask :=
  match DownloadStatus.ofValue d.status with
  | none => none
  | some st => some
    { id := d.id
      url := d.url
      filename := if d.filename = "" then extract d.url else d.filename
      destination := d.destination
      file_size := d.file_size
      downloaded_bytes := d.downloaded_bytes
      status := st
      created_at := d.created_at
      started_at := d.started_at
      completed_at := d.completed_at
      error_message := d.error_message
      retry_count := d.retry_count
      max_retries := d.max_retries
      supports_range_requests := d.supports_range_requests
      parts := []
      num_threads := d.num_threads
      download_speed := d.download_speed
      eta := d.eta
      progress_percentage := d.progress_percentage
      content_type := d.content_type
      headers := d.headers
      checksum := d.checksum
      is_video := d.is_video
      video_quality := d.video_quality
      scheduled_time := d.scheduled_time
      priority := d.priority }

/-! ## CPython `heapq`, embedded

`queue.PriorityQueue` stores `QueuedDownload` values in a list managed by
`heapq.heappush`/`heapq.heappop`; `DownloadScheduler` manages its
`scheduled_downloads` list with `heapq.heappush`/`heapq.heapify`. The
functions below are the stdlib `_siftdown`, `_siftup`, `heappush`,
`heappop` and `heapify`, written over an explicit comparison `lt`
(the `__lt__` of the element type) with a fuel argument making the
recursion structural; the fuel passed at each call site is shown
sufficient, so the base case of zero fuel is never reached from the
public entry points. -/

/-- List indexing `heap[i]` (all uses below are in range). -/
def geti {α : Type} [Inhabited α] (l : List α) (i : Nat) : α :=
  l.getD i default

/-- `heapq._siftdown(heap, startpos, pos)`: `newitem = heap[pos]` bubbles
up towards the root while it compares less than its parent. The caller
passes `newitem` explicitly (the entry points read it from the heap, see
`heappush` and `siftup`). -/
def siftdownGo {α : Type} [Inhabited α] (lt : α → α → Bool) :
    Nat → α → List α → Nat → Nat → List α
  | 0, newitem, heap, _, pos => heap.set pos newitem
  | fuel + 1, newitem, heap, startpos, pos =>
    if startpos < pos then
      let parentpos := (pos - 1) / 2
      let parent := geti heap parentpos
      if lt newitem parent then
        siftdownGo lt fuel newitem (heap.set pos parent) startpos parentpos
      else heap.set pos newitem
    else heap.set pos newitem

/-- `heapq._siftdown` proper: reads `newitem = heap[pos]`. -/
def siftdown {α : Type} [Inhabited α] (lt : α → α → Bool) (heap : List α)
    (startpos pos : Nat) : List α :=
  siftdownGo lt (pos + 1) (geti heap pos) heap startpos pos

/-- The loop of `heapq._siftup(heap, pos)`: move the smaller child up
until reaching a leaf, then sift `newitem` down (i.e. up the tree) from
the leaf; `startpos` is the position `_siftup` was entered at. Writing
`heap[pos] = newitem` followed by `_siftdown(heap, startpos, pos)` is the
same as calling `siftdownGo` with `newitem` directly: `_siftdown` only
reads `heap[pos]` once, at entry, as `newitem`. -/
def siftupGo {α : Type} [Inhabited α] (lt : α → α → Bool) :
    Nat → α → List α → Nat → Nat → List α
  | 0, newitem, heap, startpos, pos => siftdownGo lt (pos + 1) newitem heap startpos pos
  | fuel + 1, newitem, heap, startpos, pos =>
    let endpos := heap.length
    let childpos := 2 * pos + 1
    if childpos < endpos then
      let rightpos := childpos + 1
      let c :=
        if rightpos < endpos ∧ lt (geti heap childpos) (geti heap rightpos) = false
        then rightpos else childpos
      siftupGo lt fuel newitem (heap.set pos (geti heap c)) startpos c
    else siftdownGo lt (pos + 1) newitem heap startpos pos

/-- `heapq._siftup(heap, pos)`: `newitem = heap[pos]`, `startpos = pos`. -/
def siftup {α : Type} [Inhabited α] (lt : α → α → Bool) (heap : List α)
    (pos : Nat) : List α :=
  siftupGo lt heap.length (geti heap pos) heap pos pos

/-- `heapq.heappush(heap, item)`: append, then sift the appended item down
towards the root. -/
def heappush {α : Type} [Inhabited α] (lt : α → α → Bool) (heap : List α)
    (item : α) : List α :=
  siftdown lt (heap ++ [item]) 0 heap.length

/-- `heapq.heappop(heap)`: pop the last element; if the heap is still
non-empty, the root is returned and the popped last element is sifted up
from the root. `none` models the `IndexError` on an empty heap (the
`PriorityQueue` wrapper never pops an empty heap). -/
def heappop {α : Type} [Inhabited α] (lt : α → α → Bool) (heap : List α) :
    Option (α × List α) :=
  match heap.getLast? with
  | none => none
  | some lastelt =>
    let rest := heap.dropLast
    if rest.isEmpty then some (lastelt, rest)
    else some (geti rest 0, siftup lt (rest.set 0 lastelt) 0)

/-- `heapq.heapify(x)`: `for i in reversed(range(len(x)//2)): _siftup(x, i)`. -/
def heapify {α : Type} [Inhabited α] (lt : α → α → Bool) (heap : List α) :
    List α :=
  (List.range (heap.length / 2)).reverse.foldl (fun h i => siftup lt h i) heap

/-- Repeatedly `heappop` until empty: the order in which the manager's
queue processor would hand queued items to the engine if no new items
arrive. -/
def popAllGo {α : Type} [Inhabited α] (lt : α → α → Bool) :
    Nat → List α → List α
  | 0, _ => []
  | fuel + 1, heap =>
    match heappop lt heap with
    | none => []
    | some (x, rest) => x :: popAllGo lt fuel rest

/-- Drain a heap completely, in pop order. -/
def popAll {α : Type} [Inhabited α] (lt : α → α → Bool) (heap : List α) :
    List α :=
  popAllGo lt heap.length heap

/-! ## Manager queue and scheduler heap elements -/

/-- Dataclass `QueuedDownload` from src/core/download_manager.py. -/
structure QueuedDownload where
  priority : Int
  task : DownloadTask
deriving DecidableEq

instance : Inhabited QueuedDownload := ⟨⟨0, default⟩⟩

/-- `QueuedDownload.__lt__` (src/core/download_manager.py lines 28-29):
`self.priority > other.priority`, so the binary min-heap pops the highest
priority first. -/
def qdLt (self other : QueuedDownload) : Bool :=
  decide (other.priority < self.priority)

/-- Dataclass `ScheduledItem` from src/core/scheduler.py. -/
structure ScheduledItem where
  scheduled_time : Int
  task : DownloadTask
deriving DecidableEq

instance : Inhabited ScheduledItem := ⟨⟨0, default⟩⟩

/-- `ScheduledItem.__lt__` (src/core/scheduler.py lines 22-23). -/
def schedLt (self other : ScheduledItem) : Bool :=
  decide (self.scheduled_time < other.scheduled_time)

/-! ## Scheduler (src/core/scheduler.py) -/

/-- `DownloadScheduler.schedule_download(task)` (src/core/scheduler.py
lines 59-69): refuse when `task.scheduled_time` is falsy (`None` or `0`)
or not strictly after `now`; otherwise push `(scheduled_time, task)` onto
the heap. The `condition.notify()` wake-up has no observable effect on the
schedule contents and is not modelled. -/
def schedule_download (sched : List ScheduledItem) (task : DownloadTask)
    (now : Int) : Bool × List ScheduledItem :=
  match task.scheduled_time with
  | none => (false, sched)
  | some st =>
    if st = 0 ∨ st ≤ now then (false, sched)
    else (true, heappush schedLt sched ⟨st, task⟩)

/-- `DownloadScheduler.unschedule_download(download_id)`
(src/core/scheduler.py lines 71-81): linear scan for the first entry with
that task id, `del` it and re-`heapify`. -/
def unschedule_download (sched : List ScheduledItem) (download_id : String) :
    Bool × List ScheduledItem :=
  match sched.findIdx? (fun item => item.task.id = download_id) with
  | some i => (true, heapify schedLt (sched.eraseIdx i))
  | none => (false, sched)

/-- Outcome of a scheduler method running over the lock behind
`self.condition`, which `__init__` builds as
`threading.Condition(self.lock)` on a plain, non-reentrant
`threading.Lock` (src/core/scheduler.py lines 34-35).
`returns b sched` — the call returns `b`, leaving the schedule as `sched`;
`blocked sched` — the thread tried to acquire the lock it already holds,
so it blocks forever, with the schedule still in state `sched`. -/
inductive LockOutcome where
  | returns (result : Bool) (sched : List ScheduledItem)
  | blocked (sched : List ScheduledItem)
deriving DecidableEq

/-- `DownloadScheduler.unschedule_download(download_id)`
(src/core/scheduler.py lines 71-81) with its `with self.condition:` entry
made explicit: `held` says whether the calling thread already holds the
lock. `threading.Lock` is not reentrant, so re-acquiring it blocks the
thread forever, before the scan ever runs. With `held = false` this
agrees with `unschedule_download` above
(lemma `unschedule_download_locked_free`). -/
def unschedule_download_locked (held : Bool) (sched : List ScheduledItem)
    (download_id : String) : LockOutcome :=
  if held then .blocked sched
  else
    match sched.findIdx? (fun item => item.task.id = download_id) with
    | some i => .returns true (heapify schedLt (sched.eraseIdx i))
    | none => .returns false sched

/-- `DownloadScheduler.schedule_download(task)` (src/core/scheduler.py
lines 59-69) with the lock explicit: the falsiness/past-time check at
lines 61-62 precedes the `with self.condition:` block, so only the push
path touches the lock. With `held = false` this agrees with
`schedule_download` above (lemma `schedule_download_locked_free`). -/
def schedule_download_locked (held : Bool) (sched : List ScheduledItem)
    (task : DownloadTask) (now : Int) : LockOutcome :=
  match task.scheduled_time with
  | none => .returns false sched
  | some st =>
    if st = 0 ∨ st ≤ now then .returns false sched
    else if held then .blocked sched
    else .returns true (heappush schedLt sched ⟨st, task⟩)

/-- `DownloadScheduler.reschedule_download(download_id, new_time)`
(src/core/scheduler.py lines 83-96): enter `with self.condition:` — from
here on the thread holds the lock — and scan for the first entry with the
given id. On a hit, call `self.unschedule_download(download_id)`, whose
own `with self.condition:` re-acquires the same non-reentrant lock; were
that to return, the task's `scheduled_time` would be overwritten and
`schedule_download(item.task)` called (its push path acquires the lock
too). With no hit, return `False`. -/
def reschedule_download (held : Bool) (sched : List ScheduledItem)
    (download_id : String) (new_time now : Int) : LockOutcome :=
  if held then .blocked sched
  else
    match sched.find? (fun item => item.task.id = download_id) with
    | some item =>
      match unschedule_download_locked true sched download_id with
      | .blocked s => .blocked s
      | .returns _ sched₁ =>
        schedule_download_locked true sched₁
          { item.task with scheduled_time := some new_time } now
    | none => .returns false sched

/-! ## File store (src/filesystem/file_manager.py) and completion
(src/core/download_engine.py `_complete_download`) -/

/-- The file system: a map from path to file contents (bytes as `List Nat`).
Directories are implicit; `mkdir` calls have no observable effect here. -/
def FS : Type := String → Option (List Nat)

/-- Opening a file with mode `wb`: create or truncate, then the writes of
the merge loop append to it. -/
def fsWrite (fs : FS) (path : String) (bytes : List Nat) : FS :=
  fun q => if q = path then some bytes else fs q

/-- `os.remove(path)` (missing files are skipped by the caller). -/
def fsRemove (fs : FS) (path : String) : FS :=
  fun q => if q = path then none else fs q

/-- Appending to an open output file (`shutil.copyfileobj` onto a file
opened with `wb`, or `FileManager.append_to_temp_file`). -/
def fsAppendFile (fs : FS) (path : String) (bytes : List Nat) : FS :=
  fsWrite fs path (((fs path).getD []) ++ bytes)

/-- `os.path.join(directory, name)` for the paths used here. -/
def pathJoin (directory name : String) : String :=
  directory ++ "/" ++ name

/-- The copy loop of `FileManager.merge_temp_files`
(src/filesystem/file_manager.py lines 78-84): stream each temp file into
the open output; a missing temp file raises (`false`), with the partial
output already on disk. -/
def mergeLoop (fs : FS) (output_path : String) :
    List String → Bool × FS
  | [] => (true, fs)
  | p :: rest =>
    match fs p with
    | some bytes => mergeLoop (fsAppendFile fs output_path bytes) output_path rest
    | none => (false, fs)

/-- `FileManager.merge_temp_files(temp_files, output_path)`
(src/filesystem/file_manager.py lines 69-93): create/truncate the output
file, then copy every temp file into it in order. The trailing
`os.path.exists(output_path)` check always passes after the write. The
result `false` models the raised exception. -/
def merge_temp_files (fs : FS) (temp_files : List String)
    (output_path : String) : Bool × FS :=
  mergeLoop (fsWrite fs output_path []) output_path temp_files

/-- `FileManager.verify_file_integrity(path, expected_size)` with no
checksum (src/filesystem/file_manager.py lines 116-138): the file exists
and its size matches. -/
def verify_file_integrity (fs : FS) (path : String) (expected_size : Int) :
    Bool :=
  match fs path with
  | none => false
  | some bytes => decide ((bytes.length : Int) = expected_size)

/-- `FileManager.cleanup_temp_files` (src/filesystem/file_manager.py
lines 95-102). -/
def cleanup_temp_files (fs : FS) (temp_files : List String) : FS :=
  temp_files.foldl fsRemove fs

/-- `DownloadTask.complete` (src/core/download_task.py lines 134-139). -/
def DownloadTask.complete (t : DownloadTask) (now : Int) : DownloadTask :=
  { t with status := .COMPLETED, completed_at := some now,
           progress_percentage := 100, downloaded_bytes := t.file_size }

/-- `DownloadTask.error(message)` (src/core/download_task.py lines 141-144). -/
def DownloadTask.setError (t : DownloadTask) (message : String) : DownloadTask :=
  { t with status := .ERROR, error_message := some message }

/-- `DownloadEngine._complete_download(task)` (src/core/download_engine.py
lines 336-369). `categoryDir` abstracts
`FileManager.get_file_category_directory` (a settings lookup by file
extension), used only when `task.destination` is falsy. The final path is
`os.path.join(task.destination, task.filename)` — computed from the
task's current filename with no collision probing — and
`merge_temp_files` opens exactly that path with mode `wb`. An exception
from the merge is caught by the outer handler
(`task.error(f"Failed to complete download: ...")`). -/
def complete_download (categoryDir : String → String) (now : Int)
    (fs : FS) (task : DownloadTask) : DownloadTask × FS :=
  let temp_files := task.parts.filterMap fun part =>
    match part.temp_file_path with
    | some p => if p ≠ "" ∧ (fs p).isSome then some p else none
    | none => none
  if temp_files.isEmpty then (task.setError "No temporary files found", fs)
  else
    let dest :=
      match task.destination with
      | none => categoryDir task.filename
      | some d => if d = "" then categoryDir task.filename else d
    let task₁ := { task with destination := some dest }
    let final_path := pathJoin dest task.filename
    let mr := merge_temp_files fs temp_files final_path
    if mr.1 then
      if verify_file_integrity mr.2 final_path task₁.file_size then
        (task₁.complete now, cleanup_temp_files mr.2 temp_files)
      else (task₁.setError "File integrity verification failed", mr.2)
    else (task₁.setError "Failed to complete download: merge raised", mr.2)

/-! ## Download manager (src/core/download_manager.py) -/

/-- In-memory state of `DownloadManager` together with the persistence it
drives: `all_downloads` is the task registry (a dict keyed by task id,
kept as a list in insertion order), `db` the `downloads` table
(`INSERT OR REPLACE` keyed by id), `queue` the `PriorityQueue`'s heap,
`scheduled` the scheduler's heap, `active` the ids in `active_downloads`. -/
structure ManagerState where
  all_downloads : List DownloadTask
  db : List DownloadTask
  queue : List QueuedDownload
  scheduled : List ScheduledItem
  active : List String
deriving DecidableEq

/-- Dict write `all_downloads[task.id] = task`: replace the entry with the
same id, else append. -/
def regUpsert (reg : List DownloadTask) (task : DownloadTask) :
    List DownloadTask :=
  if reg.any (fun t => t.id = task.id) then
    reg.map (fun t => if t.id = task.id then task else t)
  else reg ++ [task]

/-- `DatabaseManager.save_download` (src/database/db_manager.py lines
99-120): `INSERT OR REPLACE` keyed by the task id. -/
def dbUpsert (db : List DownloadTask) (task : DownloadTask) :
    List DownloadTask :=
  if db.any (fun t => t.id = task.id) then
    db.map (fun t => if t.id = task.id then task else t)
  else db ++ [task]

/-- `DownloadManager._is_duplicate_url(url)` (src/core/download_manager.py
lines 313-317). -/
def is_duplicate_url (tasks : List DownloadTask) (url : String) : Bool :=
  tasks.any fun task =>
    decide (task.status ≠ .COMPLETED ∧ task.status ≠ .CANCELLED ∧
            task.url = url)

/-- `DownloadManager._queue_download(task)` (src/core/download_manager.py
lines 319-325): wrap in a `QueuedDownload`, put it on the priority queue,
set the status to Queued and persist. In Python the queued wrapper, the
registry and the database all alias the same mutated task object, so all
three see the Queued status; the snapshot stored here is that final
state. -/
def queue_download (st : ManagerState) (task : DownloadTask) : ManagerState :=
  let task₁ := { task with status := .QUEUED }
  { st with
      queue := heappush qdLt st.queue ⟨task.priority, task₁⟩
      all_downloads := regUpsert st.all_downloads task₁
      db := dbUpsert st.db task₁ }

/-- Metadata returned by `VideoDetector.detect_video` (an external
collaborator of `add_download`), abstracted to the two fields the manager
reads. -/
structure VideoInfo where
  quality : Option String
  direct_url : Option String

/-- The `DownloadTask(url, filename, destination)` constructor
(src/core/download_task.py lines 39-74): a fresh id (md5 of url and
creation time, abstracted as `freshId`), the given filename if truthy else
one extracted from the URL (`_extract_filename_from_url`, abstracted as
`extract`), and defaults everywhere else. -/
def newTask (freshId : String) (extract : String → String) (url : String)
    (filename destination : Option String) (now : Int) : DownloadTask :=
  { id := freshId
    url := url
    filename :=
      match filename with
      | none => extract url
      | some f => if f = "" then extract url else f
    destination := destination
    created_at := now }

/-- `DownloadManager.add_download` (src/core/download_manager.py lines
101-155). `valid` abstracts `validators.url(url)`; `enable_video` and
`detect` abstract the video-detection collaborator; `defaultDir` is
`settings.get_download_directory()`. An invalid or duplicate URL raises
`ValueError`, caught by the handler which returns `None` — before any
task is created, persisted, queued or scheduled. On the scheduling branch
the status is set to Queued only after `save_download`, so the database
keeps the Pending snapshot while the registry and the scheduler (which
alias the mutated object) see Queued. -/
def add_download (valid : Bool) (freshId : String)
    (extract : String → String) (enable_video : Bool)
    (detect : String → Option VideoInfo) (defaultDir : String) (now : Int)
    (st : ManagerState) (url : String) (filename destination : Option String)
    (scheduled_time : Option Int) (priority : Int) :
    Option DownloadTask × ManagerState :=
  if valid = false then (none, st)
  else if is_duplicate_url st.all_downloads url then (none, st)
  else
    let task₀ := newTask freshId extract url filename destination now
    let task₀ := { task₀ with scheduled_time := scheduled_time,
                              priority := priority }
    let task₁ :=
      if enable_video then
        match detect url with
        | some vi =>
          { task₀ with
              is_video := true
              video_quality := vi.quality
              url :=
                match vi.direct_url with
                | some du => if du = "" then task₀.url else du
                | none => task₀.url }
        | none => task₀
      else task₀
    let task₂ :=
      match task₁.destination with
      | none => { task₁ with destination := some defaultDir }
      | some d =>
        if d = "" then { task₁ with destination := some defaultDir } else task₁
    let st₁ := { st with db := dbUpsert st.db task₂,
                         all_downloads := regUpsert st.all_downloads task₂ }
    match scheduled_time with
    | some sc =>
      if sc ≠ 0 ∧ now < sc then
        let task₃ := { task₂ with status := .QUEUED }
        (some task₃,
          { st₁ with
              scheduled := (schedule_download st₁.scheduled task₃ now).2
              all_downloads := regUpsert st₁.all_downloads task₃ })
      else
        let st₂ := queue_download st₁ task₂
        (some { task₂ with status := .QUEUED }, st₂)
    | none =>
      let st₂ := queue_download st₁ task₂
      (some { task₂ with status := .QUEUED }, st₂)

/-- `DownloadManager.get_download(download_id)`
(src/core/download_manager.py lines 253-256). -/
def get_download (st : ManagerState) (download_id : String) :
    Option DownloadTask :=
  st.all_downloads.find? (fun t => t.id = download_id)

/-- `DownloadManager.cancel_download(download_id)`
(src/core/download_manager.py lines 198-222): no status guard — any known
task is marked Cancelled, persisted and removed from the active set, and
the call returns `True`. (`DownloadEngine.cancel_download`, invoked first
when the task is Downloading, also ends in `task.cancel()` and temp-file
cleanup; the status outcome is the same `CANCELLED`.) -/
def cancel_download (st : ManagerState) (download_id : String) :
    Bool × ManagerState :=
  match get_download st download_id with
  | none => (false, st)
  | some task =>
    let task₁ := { task with status := .CANCELLED }
    (true,
      { st with
          all_downloads := regUpsert st.all_downloads task₁
          db := dbUpsert st.db task₁
          active := st.active.erase download_id })

/-- `DownloadTask.is_scheduled` (src/core/download_task.py lines 188-190). -/
def DownloadTask.is_scheduled (t : DownloadTask) (now : Int) : Bool :=
  match t.scheduled_time with
  | none => false
  | some st => decide (now < st)

/-- `DownloadManager._load_downloads` (src/core/download_manager.py lines
296-311), run at startup over the persisted tasks. Returns the registry
contents (in load order), the sequence of `save_download` calls made, and
the scheduler heap (starting from `sched₀`, empty at boot). In Python the
registry entry, the saved task and the scheduled task alias one mutated
object, so all of them see the Paused rewrite. -/
def load_downloads_go (now : Int)
    (acc : List DownloadTask × List DownloadTask × List ScheduledItem) :
    List DownloadTask →
      List DownloadTask × List DownloadTask × List ScheduledItem
  | [] => acc
  | task :: rest =>
    let task₁ :=
      if task.status = .DOWNLOADING then { task with status := .PAUSED }
      else task
    let saves₁ :=
      if task.status = .DOWNLOADING then acc.2.1 ++ [task₁] else acc.2.1
    let sched₁ :=
      if task₁.is_scheduled now then (schedule_download acc.2.2 task₁ now).2
      else acc.2.2
    load_downloads_go now (acc.1 ++ [task₁], saves₁, sched₁) rest

def load_downloads (now : Int) (sched₀ : List ScheduledItem)
    (tasks : List DownloadTask) :
    List DownloadTask × List DownloadTask × List ScheduledItem :=
  load_downloads_go now ([], [], sched₀) tasks

/-! ## C1: part planning tiles the byte range -/

lemma setup_parts_length (n fs : Int) (hn : 1 ≤ n) :
    (setup_multithread_parts n fs).length = n.toNat := by
  by_cases h : n ≤ 1
  · have h2 : n = 1 := le_antisymm h hn
    subst h2
    simp [setup_multithread_parts]
  · simp only [setup_multithread_parts, h, if_false, List.length_map,
      List.length_range]

lemma setup_parts_get (n fs : Int) (hn : 2 ≤ n) (i : Nat)
    (hi : i < (setup_multithread_parts n fs).length) :
    (setup_multithread_parts n fs)[i] =
      { part_number := (i : Int)
        start_byte := (i : Int) * Int.fdiv fs n
        end_byte :=
          if (i : Int) = n - 1 then fs - 1
          else (i : Int) * Int.fdiv fs n + Int.fdiv fs n - 1 } := by
  have h1 : ¬ n ≤ 1 := by omega
  simp only [setup_multithread_parts, h1, if_false, List.getElem_map,
    List.getElem_range]

lemma setup_parts_one (fs : Int) :
    setup_multithread_parts 1 fs =
      [{ part_number := 0, start_byte := 0, end_byte := fs - 1 }] := by
  simp [setup_multithread_parts]

lemma setup_parts_spec (n fs : Int) (hn : 1 ≤ n) :
    (setup_multithread_parts n fs).length = n.toNat ∧
    (∀ i (hi : i < (setup_multithread_parts n fs).length),
        ((setup_multithread_parts n fs)[i]).part_number = (i : Int)) ∧
    (∀ h0 : 0 < (setup_multithread_parts n fs).length,
        ((setup_multithread_parts n fs)[0]).start_byte = 0) ∧
    (∀ i (hi1 : i + 1 < (setup_multithread_parts n fs).length)
        (hi : i < (setup_multithread_parts n fs).length),
        ((setup_multithread_parts n fs)[i + 1]).start_byte =
          ((setup_multithread_parts n fs)[i]).end_byte + 1) ∧
    (∀ j (hj : j < (setup_multithread_parts n fs).length),
        j = (setup_multithread_parts n fs).length - 1 →
        ((setup_multithread_parts n fs)[j]).end_byte = fs - 1) := by
  by_cases h1 : n ≤ 1
  · have h2 : n = 1 := le_antisymm h1 hn
    subst h2
    refine ⟨by simp [setup_parts_one], ?_, ?_, ?_, ?_⟩
    · intro i hi
      have h0 : i = 0 := by simp [setup_parts_one] at hi; omega
      subst h0
      simp [setup_parts_one]
    · intro h0
      simp [setup_parts_one]
    · intro i hi1 hi
      simp [setup_parts_one] at hi1
    · intro j hj hlast
      have h0 : j = 0 := by simp [setup_parts_one] at hj; omega
      subst h0
      simp [setup_parts_one]
  · have hn2 : 2 ≤ n := by omega
    have hlen := setup_parts_length n fs hn
    refine ⟨hlen, ?_, ?_, ?_, ?_⟩
    · intro i hi
      rw [setup_parts_get n fs hn2 i hi]
    · intro h0
      rw [setup_parts_get n fs hn2 0 h0]
      simp
    · intro i hi1 hi
      rw [setup_parts_get n fs hn2 (i + 1) hi1, setup_parts_get n fs hn2 i hi]
      have hne : (i : Int) ≠ n - 1 := by
        rw [hlen] at hi1
        omega
      simp only [hne, if_false]
      push_cast
      ring
    · intro j hj hlast
      rw [setup_parts_get n fs hn2 j hj]
      have heq : (j : Int) = n - 1 := by
        rw [hlen] at hj hlast
        omega
      simp only [heq, if_true]

/-- C1: for a task planned by the engine with `max_threads = M ≥ 1`, the
number of parts is `min(M, max(1, file_size fdiv 1MiB))` when the task
supports range requests and `file_size > 1 MiB`, else `1`; the parts are
emitted in `part_number` order with `parts[0].start_byte = 0`,
`parts[i+1].start_byte = parts[i].end_byte + 1`, and the last part ending
at `file_size - 1`, so they tile `[0, file_size - 1]` with no gaps or
overlaps. -/
theorem c1_part_plan_tiles (M file_size : Int) (sr : Bool) (hM : 1 ≤ M) :
    plan_num_threads M sr file_size
      = (if sr = true ∧ mib < file_size
         then min M (max 1 (Int.fdiv file_size mib)) else 1) ∧
    (planParts M sr file_size).length
      = (plan_num_threads M sr file_size).toNat ∧
    (∀ i (hi : i < (planParts M sr file_size).length),
        ((planParts M sr file_size)[i]).part_number = (i : Int)) ∧
    (∀ h0 : 0 < (planParts M sr file_size).length,
        ((planParts M sr file_size)[0]).start_byte = 0) ∧
    (∀ i (hi1 : i + 1 < (planParts M sr file_size).length)
        (hi : i < (planParts M sr file_size).length),
        ((planParts M sr file_size)[i + 1]).start_byte =
          ((planParts M sr file_size)[i]).end_byte + 1) ∧
    (∀ j (hj : j < (planParts M sr file_size).length),
        j = (planParts M sr file_size).length - 1 →
        ((planParts M sr file_size)[j]).end_byte = file_size - 1) := by
  have hN1 : 1 ≤ plan_num_threads M sr file_size := by
    unfold plan_num_threads
    split
    · exact le_min hM (le_max_left 1 _)
    · exact le_refl 1
  have hspec := setup_parts_spec (plan_num_threads M sr file_size) file_size hN1
  exact ⟨rfl, hspec.1, hspec.2.1, hspec.2.2.1, hspec.2.2.2.1, hspec.2.2.2.2⟩

/-- C1 witness: with the default `M = 8` and `file_size = 1` byte, exactly
one part is emitted. -/
theorem c1_witness :
    (1 : Int) ≤ 8 ∧
    (planParts 8 true 1).length = (plan_num_threads 8 true 1).toNat ∧
    plan_num_threads 8 true 1 = 1 :=
  ⟨by decide, (c1_part_plan_tiles 8 1 true (by decide)).2.1, by decide⟩

/-! ## C2: resume request of a single-part range-supporting task -/

/-- C2, evaluated at the failing input: a part of a range-supporting task
with `start_byte = 0`, `end_byte = 999` and `downloaded_bytes = 100`.
With exactly one part the worker issues a full GET with no `Range` header
(`download_full`), not the claimed `Range: bytes=100-999`; with two parts
it does issue the range request. The guard `len(task.parts) > 1` in
`_download_part` contradicts the spec, which mandates a Range request
"regardless of part count" and itself flags this single-part resume path
as a bug (spec §9). -/
theorem c2_single_part_resume_uses_full_get :
    downloadPartRequest true 1
      { part_number := 0, start_byte := 0, end_byte := 999,
        downloaded_bytes := 100 } = some .fullReq ∧
    downloadPartRequest true 2
      { part_number := 0, start_byte := 0, end_byte := 999,
        downloaded_bytes := 100 } = some (.rangeReq 100 999) := by
  decide

/-! ## C3: serialisation round-trip -/

lemma ofValue_value (s : DownloadStatus) :
    DownloadStatus.ofValue s.value = some s := by
  cases s <;> rfl

/-- C3: for every task whose filename is truthy (the constructor
guarantees a non-empty filename), `from_dict (to_dict t)` restores every
task-level field — id, url, filename, destination, file_size,
downloaded_bytes, status, created_at, started_at, completed_at,
error_message, retry_count, max_retries, supports_range_requests,
num_threads, download_speed, eta, progress_percentage, content_type,
headers, checksum, is_video, video_quality, scheduled_time and priority —
while the transient in-memory parts list is reset. -/
theorem c3_task_dict_roundtrip (extract : String → String) (t : DownloadTask)
    (h : t.filename ≠ "") :
    DownloadTask.from_dict extract t.to_dict = some { t with parts := [] } := by
  simp [DownloadTask.from_dict, DownloadTask.to_dict, ofValue_value, h]

/-- A concrete task exercising the optional and collection fields. -/
def sampleTask : DownloadTask :=
  { id := "a1b2c3d4e5f6", url := "http://example.com/x.bin",
    filename := "x.bin", destination := some "/downloads",
    file_size := 42, downloaded_bytes := 7, status := .PAUSED,
    created_at := 100, started_at := some 101, retry_count := 1,
    supports_range_requests := true,
    parts := [{ part_number := 0, start_byte := 0, end_byte := 41,
                downloaded_bytes := 7, status := .PAUSED,
                temp_file_path := some "t0" }],
    num_threads := 1, headers := [("Content-Type", "bin")],
    scheduled_time := some 500, priority := 3 }

/-- C3 witness: the round-trip at a concrete task. -/
theorem c3_witness :
    sampleTask.filename ≠ "" ∧
    DownloadTask.from_dict (fun u => u) sampleTask.to_dict
      = some { sampleTask with parts := [] } :=
  ⟨by decide, c3_task_dict_roundtrip (fun u => u) sampleTask (by decide)⟩

/-- Index `j` is a child of index `i` in the implicit binary tree of a
`heapq` list. -/
def childOf (i j : Nat) : Prop := j = 2 * i + 1 ∨ j = 2 * i + 2

/-- The `heapq` invariant for a comparison induced by an integer key:
every parent's key is at most its children's. -/
def heapOrdered {α : Type} (key : α → Int) (l : List α) : Prop :=
  ∀ i j, childOf i j → ∀ (hi : i < l.length) (hj : j < l.length),
    key l[i] ≤ key l[j]

section HeapLemmas

variable {α : Type} [Inhabited α] (lt : α → α → Bool)

lemma geti_eq (l : List α) (i : Nat) (h : i < l.length) : geti l i = l[i] :=
  List.getD_eq_getElem l default h

lemma siftdownGo_length :
    ∀ (fuel : Nat) (n : α) (l : List α) (s p : Nat),
      (siftdownGo lt fuel n l s p).length = l.length := by
  intro fuel
  induction fuel with
  | zero => intro n l s p; simp [siftdownGo]
  | succ fuel ih =>
    intro n l s p
    simp only [siftdownGo]
    split
    · split
      · rw [ih]; simp
      · simp
    · simp

lemma siftupGo_length :
    ∀ (fuel : Nat) (n : α) (l : List α) (s p : Nat),
      (siftupGo lt fuel n l s p).length = l.length := by
  intro fuel
  induction fuel with
  | zero => intro n l s p; simp [siftupGo, siftdownGo_length]
  | succ fuel ih =>
    intro n l s p
    simp only [siftupGo]
    split
    · rw [ih]; simp
    · rw [siftdownGo_length]

lemma count_single_le [DecidableEq α] (l : List α) (i : Nat) (h : i < l.length) (b : α) :
    (if l[i] = b then 1 else 0) ≤ l.count b := by
  split
  · rename_i hib
    rw [← hib]
    exact List.count_pos_iff.mpr (List.getElem_mem h)
  · exact Nat.zero_le _

lemma count_set_eq [DecidableEq α] (l : List α) (i : Nat) (a : α) (h : i < l.length) (b : α) :
    (l.set i a).count b
      = (l.count b - (if l[i] = b then 1 else 0)) + (if a = b then 1 else 0) := by
  rw [List.count_set a b l i h]
  simp [beq_iff_eq]

lemma siftdownGo_count [DecidableEq α] :
    ∀ (fuel : Nat) (p : Nat) (l : List α) (n : α) (s : Nat),
      p < fuel → p < l.length → ∀ b,
      (siftdownGo lt fuel n l s p).count b = ((l.set p n).count b) := by
  intro fuel
  induction fuel with
  | zero => intro p l n s hf; omega
  | succ fuel ih =>
    intro p l n s hf hp b
    simp only [siftdownGo]
    split
    · rename_i hsp
      have hpp : (p - 1) / 2 < p := by omega
      have hppl : (p - 1) / 2 < l.length := by omega
      rw [geti_eq l _ hppl]
      split
      · rw [ih ((p - 1) / 2) (l.set p (l[(p - 1) / 2])) n s (by omega)
            (by simp; omega) b]
        rw [count_set_eq _ _ _ (by simp; omega), count_set_eq _ _ _ hp,
          count_set_eq _ _ _ hp]
        rw [List.getElem_set]
        have hne : ¬ p = (p - 1) / 2 := by omega
        rw [if_neg hne]
        have h1 := count_single_le l p hp b
        have h2 := count_single_le l ((p - 1) / 2) hppl b
        split <;> split <;> split <;> omega
      · rfl
    · rfl

lemma siftupGo_count [DecidableEq α] :
    ∀ (fuel : Nat) (p : Nat) (l : List α) (n : α) (s : Nat),
      l.length ≤ fuel + p → p < l.length → ∀ b,
      (siftupGo lt fuel n l s p).count b = ((l.set p n).count b) := by
  intro fuel
  induction fuel with
  | zero =>
    intro p l n s hf hp b
    omega
  | succ fuel ih =>
    intro p l n s hf hp b
    simp only [siftupGo]
    split
    · rename_i hchild
      set c := if 2 * p + 1 + 1 < l.length ∧
          lt (geti l (2 * p + 1)) (geti l (2 * p + 1 + 1)) = false
        then 2 * p + 1 + 1 else 2 * p + 1 with hc
      have hcl : c < l.length := by
        rw [hc]; split
        · rename_i hcc; exact hcc.1
        · exact hchild
      have hcp : p < c := by rw [hc]; split <;> omega
      rw [ih c (l.set p (geti l c)) n s (by simp; omega) (by simp; omega) b]
      rw [geti_eq l c hcl]
      rw [count_set_eq _ _ _ (by simp; omega), count_set_eq _ _ _ hp,
        count_set_eq _ _ _ hp]
      rw [List.getElem_set]
      have hne : ¬ p = c := by omega
      rw [if_neg hne]
      have h1 := count_single_le l p hp b
      have h2 := count_single_le l c hcl b
      split <;> split <;> split <;> omega
    · exact siftdownGo_count lt (p + 1) p l n s (by omega) hp b


lemma siftdownGo_ordered (key : α → Int)
    (hltk : ∀ a b, lt a b = decide (key a < key b)) :
    ∀ (fuel p : Nat) (l : List α) (n : α),
      p < fuel → p < l.length →
      (∀ i j, childOf i j → j ≠ p → ∀ (hi : i < l.length) (hj : j < l.length),
        key l[i] ≤ key l[j]) →
      (0 < p → ∀ j, childOf p j → ∀ (hp2 : (p - 1) / 2 < l.length)
        (hj : j < l.length), key l[(p - 1) / 2] ≤ key l[j]) →
      (∀ j, childOf p j → ∀ (hj : j < l.length), key n ≤ key l[j]) →
      heapOrdered key (siftdownGo lt fuel n l 0 p) := by
  intro fuel
  induction fuel with
  | zero => intro p l n hf; omega
  | succ fuel ih =>
    intro p l n hf hp hA hB hC
    simp only [siftdownGo]
    split
    · rename_i hsp
      have hppp : (p - 1) / 2 < p := by omega
      have hppl : (p - 1) / 2 < l.length := by omega
      rw [geti_eq l _ hppl]
      split
      · rename_i hlt
        have hkey : key n < key (l[(p - 1) / 2]) := by
          rw [hltk] at hlt
          exact of_decide_eq_true hlt
        apply ih ((p - 1) / 2) (l.set p (l[(p - 1) / 2])) n (by omega)
          (by simp; omega)
        · intro i j hij hjne hi hj
          simp only [List.length_set] at hi hj
          rw [List.getElem_set, List.getElem_set]
          by_cases hpi : p = i
          · by_cases hpj : p = j
            · rcases hij with h | h <;> omega
            · rw [if_pos hpi, if_neg hpj]
              subst hpi
              exact hB hsp j hij hppl hj
          · by_cases hpj : p = j
            · rw [if_neg hpi, if_pos hpj]
              have hipar : i = (p - 1) / 2 := by
                rcases hij with h | h <;> omega
              subst hipar
              exact le_refl _
            · rw [if_neg hpi, if_neg hpj]
              exact hA i j hij (fun h => hpj (h ▸ rfl)) hi hj
        · intro hpp0 j hcj hp2 hj
          simp only [List.length_set] at hp2 hj
          rw [List.getElem_set, List.getElem_set]
          have hgp : ¬ p = ((p - 1) / 2 - 1) / 2 := by omega
          rw [if_neg hgp]
          have hcpar : childOf (((p - 1) / 2 - 1) / 2) ((p - 1) / 2) := by
            unfold childOf
            omega
          by_cases hpj : p = j
          · rw [if_pos hpj]
            exact hA _ _ hcpar (by omega) (by omega) hppl
          · rw [if_neg hpj]
            exact le_trans (hA _ _ hcpar (by omega) (by omega) hppl)
              (hA _ _ hcj (fun h => hpj (h ▸ rfl)) hppl hj)
        · intro j hcj hj
          simp only [List.length_set] at hj
          rw [List.getElem_set]
          by_cases hpj : p = j
          · rw [if_pos hpj]
            exact le_of_lt hkey
          · rw [if_neg hpj]
            exact le_trans (le_of_lt hkey)
              (hA _ _ hcj (fun h => hpj (h ▸ rfl)) hppl hj)
      · rename_i hlt
        have hkey : key (l[(p - 1) / 2]) ≤ key n := by
          rw [hltk] at hlt
          simp only [decide_eq_true_eq] at hlt
          omega
        intro i j hij hi hj
        simp only [List.length_set] at hi hj
        rw [List.getElem_set, List.getElem_set]
        by_cases hpi : p = i
        · by_cases hpj : p = j
          · rcases hij with h | h <;> omega
          · rw [if_pos hpi, if_neg hpj]
            subst hpi
            exact hC j hij hj
        · by_cases hpj : p = j
          · rw [if_neg hpi, if_pos hpj]
            have hipar : i = (p - 1) / 2 := by
              rcases hij with h | h <;> omega
            subst hipar
            exact hkey
          · rw [if_neg hpi, if_neg hpj]
            exact hA i j hij (fun h => hpj (h ▸ rfl)) hi hj
    · rename_i hsp
      have hp0 : p = 0 := by omega
      subst hp0
      intro i j hij hi hj
      simp only [List.length_set] at hi hj
      rw [List.getElem_set, List.getElem_set]
      have hj0 : ¬ (0 : Nat) = j := by rcases hij with h | h <;> omega
      rw [if_neg hj0]
      by_cases hpi : 0 = i
      · rw [if_pos hpi]
        subst hpi
        exact hC j hij hj
      · rw [if_neg hpi]
        exact hA i j hij (fun h => hj0 (h ▸ rfl)) hi hj

end HeapLemmas

section HeapLemmas2

variable {α : Type} [Inhabited α] (lt : α → α → Bool)

lemma getElem_congr_idx (l : List α) (i j : Nat) (hij : i = j)
    (hi : i < l.length) (hj : j < l.length) : l[i] = l[j] := by
  subst hij
  rfl

lemma siftupGo_ordered (key : α → Int)
    (hltk : ∀ a b, lt a b = decide (key a < key b)) :
    ∀ (fuel p : Nat) (l : List α) (n : α),
      l.length ≤ fuel + p → p < l.length →
      (∀ i j, childOf i j → i ≠ p → ∀ (hi : i < l.length) (hj : j < l.length),
        key l[i] ≤ key l[j]) →
      (0 < p → ∀ j, childOf p j → ∀ (hp2 : (p - 1) / 2 < l.length)
        (hj : j < l.length), key l[(p - 1) / 2] ≤ key l[j]) →
      heapOrdered key (siftupGo lt fuel n l 0 p) := by
  intro fuel
  induction fuel with
  | zero => intro p l n hf hp; omega
  | succ fuel ih =>
    intro p l n hf hp hA hB
    have hstep : ∀ c (hcl : c < l.length), p < c → childOf p c →
        (∀ j, childOf p j → ∀ (hj : j < l.length), key l[c] ≤ key l[j]) →
        heapOrdered key (siftupGo lt fuel n (l.set p (l[c])) 0 c) := by
      intro c hcl hcp hcchild hbest
      apply ih c (l.set p (l[c])) n (by simp; omega) (by simp; omega)
      · intro i j hij hine hi hj
        simp only [List.length_set] at hi hj
        rw [List.getElem_set, List.getElem_set]
        by_cases hpi : p = i
        · by_cases hpj : p = j
          · rcases hij with h | h <;> omega
          · rw [if_pos hpi, if_neg hpj]
            subst hpi
            exact hbest j hij hj
        · by_cases hpj : p = j
          · rw [if_neg hpi, if_pos hpj]
            have hipar : i = (p - 1) / 2 := by
              rcases hij with h | h <;> omega
            have hp0 : 0 < p := by rcases hij with h | h <;> omega
            subst hipar
            exact hB hp0 c hcchild (by omega) hcl
          · rw [if_neg hpi, if_neg hpj]
            exact hA i j hij (fun h => hpi (h ▸ rfl)) hi hj
      · intro hc0 j hcj hp2 hj
        simp only [List.length_set] at hp2 hj
        rw [List.getElem_set, List.getElem_set]
        have hcpar : ¬ p = j := by
          rcases hcj with h | h <;> omega
        have hcp2 : p = (c - 1) / 2 := by
          rcases hcchild with h | h <;> omega
        rw [if_neg hcpar, if_pos hcp2]
        exact hA c j hcj (by omega) hcl hj
    simp only [siftupGo]
    split
    · rename_i hchild
      by_cases hcc : 2 * p + 1 + 1 < l.length ∧
          lt (geti l (2 * p + 1)) (geti l (2 * p + 1 + 1)) = false
      · rw [if_pos hcc, geti_eq l _ hcc.1]
        apply hstep (2 * p + 1 + 1) hcc.1 (by omega) (by right; omega)
        intro j hcj hj
        have h2 := hcc.2
        simp only [geti_eq l (2 * p + 1) (by omega : 2 * p + 1 < l.length),
          geti_eq l (2 * p + 1 + 1) hcc.1, hltk,
          decide_eq_false_iff_not, not_lt] at h2
        rcases hcj with h | h
        · subst h
          exact h2
        · subst h
          exact le_of_eq (congrArg key (getElem_congr_idx l _ _ (by omega)
            hcc.1 hj))
      · rw [if_neg hcc, geti_eq l _ hchild]
        apply hstep (2 * p + 1) hchild (by omega) (by left; rfl)
        intro j hcj hj
        rcases hcj with h | h
        · subst h
          exact le_refl _
        · subst h
          rw [not_and_or] at hcc
          rcases hcc with h2 | h2
          · omega
          · simp only [geti_eq l (2 * p + 1) (by omega : 2 * p + 1 < l.length),
              geti_eq l (2 * p + 1 + 1) (by omega : 2 * p + 1 + 1 < l.length),
              hltk, Bool.not_eq_false, decide_eq_true_eq] at h2
            refine le_of_lt (lt_of_lt_of_le h2 (le_of_eq (congrArg key
              (getElem_congr_idx l _ _ (by omega) (by omega) hj))))
    · rename_i hchild
      apply siftdownGo_ordered lt key hltk (p + 1) p l n (by omega) hp
      · intro i j hij hjne hi hj
        by_cases hpi : i = p
        · subst hpi
          rcases hij with h | h <;> omega
        · exact hA i j hij hpi hi hj
      · intro hp0 j hcj hp2 hj
        rcases hcj with h | h <;> omega
      · intro j hcj hj
        rcases hcj with h | h <;> omega

end HeapLemmas2

section HeapLemmas3

variable {α : Type} [Inhabited α] (lt : α → α → Bool)

lemma heapOrdered_min (key : α → Int) (l : List α) (h : heapOrdered key l) :
    ∀ j, ∀ (hj : j < l.length) (h0 : 0 < l.length), key l[0] ≤ key l[j] := by
  intro j
  induction j using Nat.strong_induction_on with
  | _ j ih =>
    intro hj h0
    by_cases hj0 : j = 0
    · subst hj0
      exact le_refl _
    · have hpar : childOf ((j - 1) / 2) j := by
        unfold childOf
        omega
      exact le_trans (ih ((j - 1) / 2) (by omega) (by omega) h0)
        (h _ j hpar (by omega) hj)

lemma heappush_length (l : List α) (x : α) :
    (heappush lt l x).length = l.length + 1 := by
  unfold heappush siftdown
  rw [siftdownGo_length]
  simp

lemma heappush_ordered (key : α → Int)
    (hltk : ∀ a b, lt a b = decide (key a < key b)) (l : List α) (x : α)
    (h : heapOrdered key l) : heapOrdered key (heappush lt l x) := by
  unfold heappush siftdown
  apply siftdownGo_ordered lt key hltk (l.length + 1) l.length (l ++ [x])
    (geti (l ++ [x]) l.length) (by omega) (by simp)
  · intro i j hij hjne hi hj
    simp only [List.length_append, List.length_singleton] at hi hj
    have hjl : j < l.length := by omega
    have hil : i < l.length := by rcases hij with hh | hh <;> omega
    rw [List.getElem_append_left hil, List.getElem_append_left hjl]
    exact h i j hij hil hjl
  · intro hp0 j hcj hp2 hj
    simp only [List.length_append, List.length_singleton] at hj
    rcases hcj with hh | hh <;> omega
  · intro j hcj hj
    simp only [List.length_append, List.length_singleton] at hj
    rcases hcj with hh | hh <;> omega

lemma heappush_count [DecidableEq α] (l : List α) (x : α) (b : α) :
    (heappush lt l x).count b = (x :: l).count b := by
  unfold heappush siftdown
  have hlen : l.length < (l ++ [x]).length := by simp
  rw [siftdownGo_count lt (l.length + 1) l.length (l ++ [x])
    (geti (l ++ [x]) l.length) 0 (by omega) hlen b]
  have hx : geti (l ++ [x]) l.length = x := by
    rw [geti_eq _ _ hlen]
    exact List.getElem_concat_length l x l.length rfl hlen
  rw [hx]
  rw [count_set_eq _ _ _ hlen]
  rw [List.getElem_concat_length l x l.length rfl hlen]
  simp only [List.count_append, List.count_cons, List.count_singleton,
    List.count_nil, beq_iff_eq]
  split <;> omega

end HeapLemmas3

section HeapLemmas4

variable {α : Type} [Inhabited α] (lt : α → α → Bool)

lemma siftup_length (l : List α) (p : Nat) :
    (siftup lt l p).length = l.length := by
  unfold siftup
  rw [siftupGo_length]

lemma siftup_count [DecidableEq α] (l : List α) (p : Nat) (hp : p < l.length)
    (b : α) : (siftup lt l p).count b = l.count b := by
  unfold siftup
  rw [siftupGo_count lt l.length p l (geti l p) p (by omega) hp b]
  rw [geti_eq l p hp, count_set_eq _ _ _ hp]
  have := count_single_le l p hp b
  omega

lemma heappop_eq (l : List α) (hne : l ≠ []) :
    heappop lt l = some (
      (if l.dropLast.isEmpty then l.getLast hne else geti l.dropLast 0),
      (if l.dropLast.isEmpty then l.dropLast
       else siftup lt (l.dropLast.set 0 (l.getLast hne)) 0)) := by
  unfold heappop
  rw [List.getLast?_eq_getLast l hne]
  by_cases hre : l.dropLast.isEmpty
  · simp [hre]
  · simp [hre]

lemma heappop_none_iff (l : List α) : heappop lt l = none ↔ l = [] := by
  constructor
  · intro h
    by_contra hne
    rw [heappop_eq lt l hne] at h
    exact Option.noConfusion h
  · intro h
    subst h
    rfl

lemma dropLast_pos_of_not_isEmpty (l : List α)
    (hre : ¬ l.dropLast.isEmpty = true) : 0 < l.dropLast.length := by
  rw [List.isEmpty_iff] at hre
  cases hdl : l.dropLast with
  | nil => exact absurd hdl hre
  | cons a as => simp [hdl]

lemma heappop_length (l : List α) (x : α) (rest : List α)
    (he : heappop lt l = some (x, rest)) :
    l ≠ [] ∧ rest.length = l.length - 1 := by
  have hne : l ≠ [] := by
    intro h
    subst h
    exact Option.noConfusion he
  refine ⟨hne, ?_⟩
  rw [heappop_eq lt l hne] at he
  simp only [Option.some.injEq, Prod.mk.injEq] at he
  rw [← he.2]
  by_cases hre : l.dropLast.isEmpty
  · simp [hre, List.length_dropLast]
  · simp [hre, siftup_length, List.length_dropLast]

lemma heappop_count [DecidableEq α] (l : List α) (x : α) (rest : List α)
    (he : heappop lt l = some (x, rest)) (b : α) :
    l.count b = (x :: rest).count b := by
  have hne : l ≠ [] := (heappop_length lt l x rest he).1
  rw [heappop_eq lt l hne] at he
  simp only [Option.some.injEq, Prod.mk.injEq] at he
  have hl : l = l.dropLast ++ [l.getLast hne] :=
    (List.dropLast_append_getLast hne).symm
  by_cases hre : l.dropLast.isEmpty
  · simp only [if_pos hre] at he
    rw [← he.1, ← he.2]
    conv_lhs => rw [hl]
    rw [List.isEmpty_iff] at hre
    rw [hre]
    simp [List.count_cons, List.count_append, List.count_singleton]
  · simp only [if_neg hre] at he
    have hd0 : 0 < l.dropLast.length := dropLast_pos_of_not_isEmpty l hre
    rw [← he.1, ← he.2]
    rw [List.count_cons,
      siftup_count lt _ 0 (by rw [List.length_set]; omega) b]
    rw [geti_eq _ _ hd0, count_set_eq _ _ _ hd0]
    conv_lhs => rw [hl]
    have hle := count_single_le l.dropLast 0 hd0 b
    simp only [List.count_cons, List.count_append, List.count_singleton,
      List.count_nil, beq_iff_eq]
    by_cases hb1 : l.dropLast[0] = b <;> by_cases hb2 : l.getLast hne = b <;>
      simp only [hb1, hb2, if_true, if_false] at hle ⊢ <;> omega

lemma heappop_root (l : List α) (x : α) (rest : List α)
    (he : heappop lt l = some (x, rest)) :
    ∀ (h0 : 0 < l.length), x = l[0] := by
  intro h0
  have hne : l ≠ [] := (heappop_length lt l x rest he).1
  rw [heappop_eq lt l hne] at he
  simp only [Option.some.injEq, Prod.mk.injEq] at he
  by_cases hre : l.dropLast.isEmpty
  · simp only [if_pos hre] at he
    rw [← he.1]
    rw [List.isEmpty_iff] at hre
    have hlen : l.length = 1 := by
      have h2 := congrArg List.length hre
      simp only [List.length_dropLast, List.length_nil] at h2
      omega
    rw [List.getLast_eq_getElem]
    exact getElem_congr_idx l _ _ (by omega) (by omega) h0
  · simp only [if_neg hre] at he
    have hd0 : 0 < l.dropLast.length := dropLast_pos_of_not_isEmpty l hre
    rw [← he.1, geti_eq _ _ hd0]
    exact List.getElem_dropLast l 0 hd0

lemma heappop_ordered (key : α → Int)
    (hltk : ∀ a b, lt a b = decide (key a < key b)) (l : List α) (x : α)
    (rest : List α) (hord : heapOrdered key l)
    (he : heappop lt l = some (x, rest)) : heapOrdered key rest := by
  have hne : l ≠ [] := (heappop_length lt l x rest he).1
  rw [heappop_eq lt l hne] at he
  simp only [Option.some.injEq, Prod.mk.injEq] at he
  by_cases hre : l.dropLast.isEmpty
  · simp only [if_pos hre] at he
    rw [List.isEmpty_iff] at hre
    rw [← he.2, hre]
    intro i j hij hi hj
    simp at hi
  · simp only [if_neg hre] at he
    have hd0 : 0 < l.dropLast.length := dropLast_pos_of_not_isEmpty l hre
    rw [← he.2]
    unfold siftup
    have hg0 : geti (l.dropLast.set 0 (l.getLast hne)) 0 = l.getLast hne := by
      rw [geti_eq _ _ (by rw [List.length_set]; omega)]
      rw [List.getElem_set]
      simp
    rw [hg0]
    apply siftupGo_ordered lt key hltk _ 0 _ _ (by simp)
      (by rw [List.length_set]; omega)
    · intro i j hij hine hi hj
      simp only [List.length_set] at hi hj
      rw [List.getElem_set, List.getElem_set]
      have hi0 : ¬ (0 : Nat) = i := fun h => hine h.symm
      have hj0 : ¬ (0 : Nat) = j := by rcases hij with h | h <;> omega
      rw [if_neg hi0, if_neg hj0]
      rw [List.getElem_dropLast, List.getElem_dropLast]
      exact hord i j hij
        (by rw [List.length_dropLast] at hi; omega)
        (by rw [List.length_dropLast] at hj; omega)
    · intro h0
      omega

end HeapLemmas4

section HeapLemmas5

variable {α : Type} [Inhabited α] (lt : α → α → Bool)

lemma popAllGo_count [DecidableEq α] :
    ∀ (fuel : Nat) (l : List α), l.length ≤ fuel → ∀ b,
      (popAllGo lt fuel l).count b = l.count b := by
  intro fuel
  induction fuel with
  | zero =>
    intro l hf b
    have : l = [] := List.length_eq_zero.mp (by omega)
    subst this
    rfl
  | succ fuel ih =>
    intro l hf b
    simp only [popAllGo]
    cases hpop : heappop lt l with
    | none =>
      rw [(heappop_none_iff lt l).mp hpop]
    | some xr =>
      obtain ⟨x, rest⟩ := xr
      have hlen := heappop_length lt l x rest hpop
      have hcnt := heappop_count lt l x rest hpop
      rw [List.count_cons, ih rest (by omega) b, hcnt b, List.count_cons]

lemma popAllGo_sorted [DecidableEq α] (key : α → Int)
    (hltk : ∀ a b, lt a b = decide (key a < key b)) :
    ∀ (fuel : Nat) (l : List α), l.length ≤ fuel → heapOrdered key l →
      List.Pairwise (fun a b => key a ≤ key b) (popAllGo lt fuel l) := by
  intro fuel
  induction fuel with
  | zero => intro l hf hord; exact List.Pairwise.nil
  | succ fuel ih =>
    intro l hf hord
    simp only [popAllGo]
    cases hpop : heappop lt l with
    | none => exact List.Pairwise.nil
    | some xr =>
      obtain ⟨x, rest⟩ := xr
      have hlen := heappop_length lt l x rest hpop
      have hordr := heappop_ordered lt key hltk l x rest hord hpop
      refine List.Pairwise.cons ?_ (ih rest (by omega) hordr)
      intro y hy
      have hyc : 0 < (popAllGo lt fuel rest).count y :=
        List.count_pos_iff.mpr hy
      rw [popAllGo_count lt fuel rest (by omega) y] at hyc
      have hyl : 0 < l.count y := by
        rw [heappop_count lt l x rest hpop y]
        rw [List.count_cons]
        omega
      have hymem : y ∈ l := List.count_pos_iff.mp hyl
      obtain ⟨j, hj, hjy⟩ := List.mem_iff_getElem.mp hymem
      have h0 : 0 < l.length := by omega
      have hx0 : x = l[0] := heappop_root lt l x rest hpop h0
      rw [hx0, ← hjy]
      exact heapOrdered_min key l hord j hj h0

lemma pushAll_ordered (key : α → Int)
    (hltk : ∀ a b, lt a b = decide (key a < key b)) :
    ∀ (ts : List α) (h : List α), heapOrdered key h →
      heapOrdered key (ts.foldl (heappush lt) h) := by
  intro ts
  induction ts with
  | nil => intro h hord; exact hord
  | cons t ts ih =>
    intro h hord
    exact ih (heappush lt h t) (heappush_ordered lt key hltk h t hord)

lemma pushAll_count [DecidableEq α] :
    ∀ (ts : List α) (h : List α) (b : α),
      (ts.foldl (heappush lt) h).count b = h.count b + ts.count b := by
  intro ts
  induction ts with
  | nil => intro h b; simp
  | cons t ts ih =>
    intro h b
    rw [List.foldl_cons, ih (heappush lt h t) b, heappush_count lt h t b]
    simp only [List.count_cons, beq_iff_eq]
    split <;> omega

end HeapLemmas5

lemma heapOrdered_nil {α : Type} (key : α → Int) : heapOrdered key [] := by
  intro i j hij hi hj
  simp at hi

lemma qdLt_key (a b : QueuedDownload) :
    qdLt a b = decide ((-a.priority : Int) < -b.priority) := by
  unfold qdLt
  exact decide_eq_decide.mpr (by omega)

/-- A minimal task for queue-order scenarios. -/
def exTask (name : String) (prio : Int) : DownloadTask :=
  { id := name, url := "http://example.com/" ++ name, filename := name,
    destination := none, priority := prio }

/-- `QueuedDownload(task.priority, task)` as built by `_queue_download`. -/
def exQueued (name : String) (prio : Int) : QueuedDownload :=
  ⟨prio, exTask name prio⟩

/-- C4 (amended): dequeue order of the manager's `PriorityQueue` respects
strict priority — for any tasks pushed onto the queue, draining it yields
the same multiset in non-increasing `priority` order, so a strictly higher
priority task is always dequeued before any strictly lower one; the
spec's example (A at 0, B at 10, C at 5, enqueued in that order) dequeues
as B, C, A. Among equal priorities, however, the order is heap-extraction
order, not FIFO (see the counterexample). -/
theorem c4_queue_priority_order :
    (∀ ts : List QueuedDownload,
      List.Pairwise (fun a b => b.priority ≤ a.priority)
        (popAll qdLt (ts.foldl (heappush qdLt) [])) ∧
      (∀ q, (popAll qdLt (ts.foldl (heappush qdLt) [])).count q = ts.count q)) ∧
    popAll qdLt ([exQueued "A" 0, exQueued "B" 10,
        exQueued "C" 5].foldl (heappush qdLt) [])
      = [exQueued "B" 10, exQueued "C" 5, exQueued "A" 0] := by
  constructor
  · intro ts
    have hord : heapOrdered (fun q : QueuedDownload => -q.priority)
        (ts.foldl (heappush qdLt) []) :=
      pushAll_ordered qdLt _ qdLt_key ts []
        (heapOrdered_nil _)
    constructor
    · have hs := popAllGo_sorted qdLt _ qdLt_key
        (ts.foldl (heappush qdLt) []).length (ts.foldl (heappush qdLt) [])
        (le_refl _) hord
      exact hs.imp (fun h => by omega)
    · intro q
      unfold popAll
      rw [popAllGo_count qdLt _ _ (le_refl _) q]
      rw [pushAll_count qdLt ts [] q]
      simp
  · decide

/-- C4 counterexample: four tasks of equal priority 5, enqueued in order
t0, t1, t2, t3, are dequeued in order t0, t2, t1, t3 — not FIFO order.
CPython's `heapq` is not stable and `QueuedDownload.__lt__` compares only
the priority, so the claimed FIFO tie-breaking does not hold. -/
theorem c4_fifo_counterexample :
    popAll qdLt ([exQueued "t0" 5, exQueued "t1" 5, exQueued "t2" 5,
        exQueued "t3" 5].foldl (heappush qdLt) [])
      = [exQueued "t0" 5, exQueued "t2" 5, exQueued "t1" 5,
         exQueued "t3" 5] ∧
    popAll qdLt ([exQueued "t0" 5, exQueued "t1" 5, exQueued "t2" 5,
        exQueued "t3" 5].foldl (heappush qdLt) [])
      ≠ [exQueued "t0" 5, exQueued "t1" 5, exQueued "t2" 5,
         exQueued "t3" 5] ∧
    ([exQueued "t0" 5, exQueued "t1" 5, exQueued "t2" 5,
        exQueued "t3" 5].map QueuedDownload.priority) = [5, 5, 5, 5] := by
  refine ⟨by decide, by decide, by decide⟩

/-! ## C8: scheduling refusal -/

/-- C8: `schedule_download` returns `false` and leaves the schedule
unchanged when `scheduled_time` is absent or not strictly greater than
`now` (for any non-negative clock, the Python falsiness of `0` is
subsumed by the past-time check); when `scheduled_time > now` it pushes
the `(scheduled_time, task)` entry onto the heap and returns `true` (the
worker wake-up via `condition.notify()` has no effect on the schedule and
is outside this model). -/
theorem c8_schedule_refusal (sched : List ScheduledItem)
    (task : DownloadTask) (now : Int) (hnow : 0 ≤ now) :
    (task.scheduled_time = none →
      schedule_download sched task now = (false, sched)) ∧
    (∀ st, task.scheduled_time = some st → st ≤ now →
      schedule_download sched task now = (false, sched)) ∧
    (∀ st, task.scheduled_time = some st → now < st →
      schedule_download sched task now
        = (true, heappush schedLt sched ⟨st, task⟩)) := by
  refine ⟨?_, ?_, ?_⟩
  · intro h
    simp [schedule_download, h]
  · intro st h hle
    simp only [schedule_download, h]
    rw [if_pos (Or.inr hle)]
  · intro st h hgt
    simp only [schedule_download, h]
    rw [if_neg (by omega)]

/-- A task scheduled for time 50. -/
def schedTask : DownloadTask := { exTask "s" 0 with scheduled_time := some 50 }

/-- C8 witness: at `now = 100` the task scheduled for 50 is refused and
the schedule is unchanged; at `now = 10` it is pushed and accepted. -/
theorem c8_witness :
    schedule_download [] schedTask 100 = (false, []) ∧
    schedule_download [] schedTask 10
      = (true, heappush schedLt [] ⟨50, schedTask⟩) :=
  ⟨(c8_schedule_refusal [] schedTask 100 (by decide)).2.1 50 rfl (by decide),
   (c8_schedule_refusal [] schedTask 10 (by decide)).2.2 50 rfl (by decide)⟩

/-! ## C9: cancel has no status guard -/

lemma find?_regUpsert (reg : List DownloadTask) (t t₁ : DownloadTask)
    (id : String) (hfind : reg.find? (fun u => u.id = id) = some t)
    (hid : t₁.id = t.id) :
    (regUpsert reg t₁).find? (fun u => u.id = id) = some t₁ := by
  have htid : t.id = id := by
    have := List.find?_some hfind
    simpa using this
  have hmem : t ∈ reg := List.mem_of_find?_eq_some hfind
  have hany : reg.any (fun u => u.id = t₁.id) = true := by
    rw [List.any_eq_true]
    exact ⟨t, hmem, by simp [hid]⟩
  unfold regUpsert
  rw [if_pos hany]
  clear hany hmem
  induction reg with
  | nil => exact Option.noConfusion hfind
  | cons a as ih =>
    by_cases ha : a.id = id
    · rw [List.find?_cons_of_pos as (by simp [ha])] at hfind
      simp only [List.map_cons]
      rw [if_pos (by rw [ha, hid, htid])]
      exact List.find?_cons_of_pos _ (by simp [hid, htid])
    · rw [List.find?_cons_of_neg as (by simp [ha])] at hfind
      simp only [List.map_cons]
      rw [if_neg (by rw [hid, htid]; exact ha)]
      rw [List.find?_cons_of_neg _ (by simp [ha])]
      exact ih hfind

/-- C9: `Manager.cancel_download(id)` succeeds for every known task
regardless of its current status: it returns `True` and rewrites the
task's status to Cancelled — there is no status guard, so even a
Completed, Error, Cancelled or Pending task is re-marked Cancelled. -/
theorem c9_cancel_any_status (st : ManagerState) (id : String)
    (t : DownloadTask) (h : get_download st id = some t) :
    (cancel_download st id).1 = true ∧
    get_download (cancel_download st id).2 id
      = some { t with status := .CANCELLED } := by
  unfold cancel_download
  rw [h]
  refine ⟨rfl, ?_⟩
  unfold get_download at h ⊢
  exact find?_regUpsert st.all_downloads t { t with status := .CANCELLED }
    id h rfl

/-- A task that already finished. -/
def doneTask : DownloadTask := { exTask "d" 0 with status := .COMPLETED }

/-- A manager state holding only the completed task. -/
def c9State : ManagerState :=
  { all_downloads := [doneTask], db := [doneTask], queue := [],
    scheduled := [], active := [] }

/-- C9 witness: cancelling the already-Completed task returns `True` and
re-marks it Cancelled. -/
theorem c9_witness :
    (cancel_download c9State "d").1 = true ∧
    get_download (cancel_download c9State "d").2 "d"
      = some { doneTask with status := .CANCELLED } :=
  c9_cancel_any_status c9State "d" doneTask (by decide)

/-! ## C6: duplicate-URL rejection -/

lemma is_duplicate_url_iff (tasks : List DownloadTask) (url : String) :
    is_duplicate_url tasks url = true ↔
      ∃ t ∈ tasks, t.url = url ∧ t.status ≠ .COMPLETED ∧
        t.status ≠ .CANCELLED := by
  unfold is_duplicate_url
  rw [List.any_eq_true]
  constructor
  · rintro ⟨t, ht, hp⟩
    rw [decide_eq_true_iff] at hp
    exact ⟨t, ht, hp.2.2, hp.1, hp.2.1⟩
  · rintro ⟨t, ht, h1, h2, h3⟩
    exact ⟨t, ht, by simp [h1, h2, h3]⟩

/-- C6: with a syntactically valid URL, `add_download` returns no task
exactly when some existing task has the same URL and a status other than
Completed or Cancelled; on that rejection the whole manager state —
registry, database, queue and schedule — is unchanged. -/
theorem c6_add_download_duplicate (freshId : String)
    (extract : String → String) (enable_video : Bool)
    (detect : String → Option VideoInfo) (defaultDir : String) (now : Int)
    (st : ManagerState) (url : String) (filename destination : Option String)
    (scheduled_time : Option Int) (priority : Int) (valid : Bool)
    (hv : valid = true) :
    ((add_download valid freshId extract enable_video detect defaultDir now
        st url filename destination scheduled_time priority).1 = none ↔
      ∃ t ∈ st.all_downloads, t.url = url ∧ t.status ≠ .COMPLETED ∧
        t.status ≠ .CANCELLED) ∧
    (is_duplicate_url st.all_downloads url = true →
      (add_download valid freshId extract enable_video detect defaultDir now
        st url filename destination scheduled_time priority).2 = st) := by
  subst hv
  by_cases hdup : is_duplicate_url st.all_downloads url
  · constructor
    · rw [← is_duplicate_url_iff]
      unfold add_download
      rw [if_neg (by simp), if_pos hdup]
      simp [hdup]
    · intro _
      unfold add_download
      rw [if_neg (by simp), if_pos hdup]
  · constructor
    · rw [← is_duplicate_url_iff]
      simp only [iff_false_intro hdup, iff_false]
      cases hsc : scheduled_time with
      | none =>
        subst hsc
        simp [add_download, hdup]
      | some sc =>
        subst hsc
        by_cases hfut : sc ≠ 0 ∧ now < sc
        · simp [add_download, hdup, hfut]
        · simp only [add_download, if_neg (by simp : ¬ (true = false)),
            Bool.false_eq_true, if_false, if_neg hdup, if_neg hfut]
          simp
    · intro h
      exact absurd h hdup

/-- A pending task holding the URL "u". -/
def pendTask : DownloadTask := { exTask "p" 0 with url := "u" }

/-- A manager state holding only the pending task. -/
def c6State : ManagerState :=
  { all_downloads := [pendTask], db := [pendTask], queue := [],
    scheduled := [], active := [] }

/-- C6 witness: re-adding the pending URL "u" is rejected and the state
is unchanged. -/
theorem c6_witness :
    (add_download true "f" (fun u => u) false (fun _ => none) "/dl" 0
      c6State "u" none none none 0).1 = none ∧
    (add_download true "f" (fun u => u) false (fun _ => none) "/dl" 0
      c6State "u" none none none 0).2 = c6State := by
  have h := c6_add_download_duplicate "f" (fun u => u) false (fun _ => none)
    "/dl" 0 c6State "u" none none none 0 true rfl
  exact ⟨h.1.mpr ⟨pendTask, by decide, by decide, by decide, by decide⟩,
    h.2 (by decide)⟩

/-! ## C10: reschedule is not atomic on failure -/

lemma getElem_idx_eq {α : Type} (l : List α) (i j : Nat) (hij : i = j)
    (hi : i < l.length) (hj : j < l.length) : l[i] = l[j] := by
  subst hij
  rfl

lemma findIdx?_go_spec {α : Type} (p : α → Bool) :
    ∀ (l : List α) (s i : Nat), List.findIdx? p l s = some i →
      s ≤ i ∧ i - s < l.length ∧
        ∀ (h : i - s < l.length), p l[i - s] = true := by
  intro l
  induction l with
  | nil => intro s i h; exact Option.noConfusion h
  | cons a as ih =>
    intro s i h
    rw [List.findIdx?_cons] at h
    by_cases hpa : p a = true
    · rw [if_pos hpa, Option.some.injEq] at h
      subst h
      refine ⟨le_refl _, by simp, ?_⟩
      intro hlt
      simpa using hpa
    · rw [if_neg hpa] at h
      obtain ⟨h1, h2, h3⟩ := ih (s + 1) i h
      refine ⟨by omega, by simp; omega, ?_⟩
      intro hlt
      have h4 := h3 h2
      have he1 : (a :: as)[i - s] = (a :: as)[(i - (s + 1)) + 1] :=
        getElem_idx_eq (a :: as) _ _ (by omega) hlt (by simp; omega)
      rw [he1, List.getElem_cons_succ]
      exact h4

lemma countP_eraseIdx_found {α : Type} (p : α → Bool) :
    ∀ (l : List α) (i : Nat) (hi : i < l.length),
      p l[i] = true →
      List.countP p (l.eraseIdx i) = List.countP p l - 1 := by
  intro l
  induction l with
  | nil => intro i hi; simp at hi
  | cons a as ih =>
    intro i hi hp
    cases i with
    | zero =>
      rw [List.eraseIdx_cons_zero, List.countP_cons]
      rw [List.getElem_cons_zero] at hp
      rw [if_pos hp]
      omega
    | succ n =>
      rw [List.eraseIdx_cons_succ, List.countP_cons, List.countP_cons]
      rw [List.getElem_cons_succ] at hp
      have hn : n < as.length := by simp at hi; omega
      rw [ih n hn hp]
      have hcnt : 0 < as.countP p :=
        List.countP_pos.mpr ⟨as[n], List.getElem_mem hn, hp⟩
      omega

lemma foldl_siftup_count {α : Type} [Inhabited α] [DecidableEq α]
    (lt : α → α → Bool) :
    ∀ (idxs : List Nat) (h : List α), (∀ i ∈ idxs, i < h.length) →
      (∀ b, (idxs.foldl (fun acc i => siftup lt acc i) h).count b
        = h.count b) ∧
      (idxs.foldl (fun acc i => siftup lt acc i) h).length = h.length := by
  intro idxs
  induction idxs with
  | nil => intro h _; exact ⟨fun b => rfl, rfl⟩
  | cons i idxs ih =>
    intro h hidx
    have hi : i < h.length := hidx i (List.mem_cons_self i idxs)
    have hrest : ∀ j ∈ idxs, j < (siftup lt h i).length := by
      intro j hj
      rw [siftup_length]
      exact hidx j (List.mem_cons_of_mem i hj)
    obtain ⟨hc, hl⟩ := ih (siftup lt h i) hrest
    rw [List.foldl_cons]
    refine ⟨?_, ?_⟩
    · intro b
      rw [hc b, siftup_count lt h i hi b]
    · rw [hl, siftup_length]

lemma heapify_countP {α : Type} [Inhabited α] [DecidableEq α]
    (lt : α → α → Bool) (l : List α) (p : α → Bool) :
    (heapify lt l).countP p = l.countP p := by
  have hidx : ∀ i ∈ (List.range (l.length / 2)).reverse, i < l.length := by
    intro i hi
    rw [List.mem_reverse, List.mem_range] at hi
    omega
  have hcnt := (foldl_siftup_count lt (List.range (l.length / 2)).reverse
    l hidx).1
  have hperm : List.Perm (heapify lt l) l :=
    List.perm_iff_count.mpr (fun b => by unfold heapify; exact hcnt b)
  exact hperm.countP_eq p

lemma unschedule_found (sched : List ScheduledItem) (id : String)
    (hmem : 0 < sched.countP (fun item => decide (item.task.id = id))) :
    (unschedule_download sched id).1 = true ∧
    (unschedule_download sched id).2.countP
        (fun item => decide (item.task.id = id))
      = sched.countP (fun item => decide (item.task.id = id)) - 1 := by
  cases hidx : sched.findIdx? (fun item => item.task.id = id) with
  | none =>
    rw [List.findIdx?_eq_none_iff] at hidx
    have : sched.countP (fun item => decide (item.task.id = id)) = 0 := by
      rw [List.countP_eq_zero]
      intro a ha
      simpa using hidx a ha
    omega
  | some i =>
    obtain ⟨h1, h2, h3⟩ := findIdx?_go_spec _ sched 0 i hidx
    simp only [Nat.sub_zero] at h2 h3
    unfold unschedule_download
    rw [hidx]
    refine ⟨rfl, ?_⟩
    rw [heapify_countP]
    exact countP_eraseIdx_found _ sched i h2 (h3 h2)

lemma unschedule_download_locked_free (sched : List ScheduledItem)
    (id : String) :
    unschedule_download_locked false sched id
      = .returns (unschedule_download sched id).1
          (unschedule_download sched id).2 := by
  unfold unschedule_download_locked unschedule_download
  cases sched.findIdx? (fun item => item.task.id = id) <;> rfl

lemma schedule_download_locked_free (sched : List ScheduledItem)
    (task : DownloadTask) (now : Int) :
    schedule_download_locked false sched task now
      = .returns (schedule_download sched task now).1
          (schedule_download sched task now).2 := by
  unfold schedule_download_locked schedule_download
  cases task.scheduled_time with
  | none => rfl
  | some st =>
    by_cases h : st = 0 ∨ st ≤ now
    · simp only [if_pos h]
    · simp only [if_neg h]
      rfl

/-- A task with id "r" scheduled for time 50. -/
def c10Task : DownloadTask := { exTask "r" 0 with scheduled_time := some 50 }

/-- C10 counterexample: with the single entry ⟨50, c10Task⟩ in the
schedule and the clock at 100, rescheduling id "r" to the past time 10
does not return `False` with the entry removed: the call blocks forever
on the nested lock acquisition inside `unschedule_download`, with the
schedule still holding the entry at its old time 50. -/
theorem c10_deadlock_counterexample :
    reschedule_download false [⟨50, c10Task⟩] "r" 10 100
      = .blocked [⟨50, c10Task⟩] ∧
    reschedule_download false [⟨50, c10Task⟩] "r" 10 100
      ≠ .returns false (unschedule_download [⟨50, c10Task⟩] "r").2 := by
  decide

/-- C10 (amended): `reschedule_download` never returns `False` with the
entry removed. For an id currently in the schedule the call — already
inside `with self.condition:`, whose underlying `threading.Lock` is not
reentrant — invokes `unschedule_download`, whose own
`with self.condition:` blocks the thread forever before anything is
removed, whatever `new_time` is: the thread hangs with the schedule
unchanged, the entry still at its old time. For an id not in the
schedule the call returns `False`, also with the schedule unchanged. -/
theorem c10_reschedule_deadlocks (sched : List ScheduledItem) (id : String)
    (new_time now : Int) :
    reschedule_download false sched id new_time now
      = if sched.any (fun item => item.task.id = id)
        then .blocked sched else .returns false sched := by
  unfold reschedule_download
  rw [if_neg (by simp)]
  cases hfind : sched.find? (fun item => item.task.id = id) with
  | none =>
    have hnone := List.find?_eq_none.mp hfind
    have hany : sched.any (fun item => decide (item.task.id = id)) = false := by
      rw [List.any_eq_false]
      intro a ha
      simpa using hnone a ha
    rw [hany, if_neg (by simp)]
  | some item =>
    have hmem := List.mem_of_find?_eq_some hfind
    have hp := List.find?_some hfind
    have hany : sched.any (fun item => decide (item.task.id = id)) = true :=
      List.any_eq_true.mpr ⟨item, hmem, hp⟩
    rw [hany, if_pos rfl]
    rfl

/-! ## C7: startup recovery -/

lemma fix_scheduled_time (t : DownloadTask) :
    (if t.status = DownloadStatus.DOWNLOADING
      then { t with status := .PAUSED } else t).scheduled_time
      = t.scheduled_time := by
  split <;> rfl

lemma fix_is_scheduled (t : DownloadTask) (now : Int) :
    (if t.status = DownloadStatus.DOWNLOADING
      then { t with status := .PAUSED } else t).is_scheduled now
      = t.is_scheduled now := by
  unfold DownloadTask.is_scheduled
  rw [fix_scheduled_time]

lemma schedule_download_push (sched : List ScheduledItem)
    (task : DownloadTask) (now st : Int)
    (hst : task.scheduled_time = some st) (hgt : now < st) (h0 : st ≠ 0) :
    schedule_download sched task now
      = (true, heappush schedLt sched ⟨st, task⟩) := by
  simp only [schedule_download, hst]
  rw [if_neg (by omega)]

lemma load_go_spec (now : Int) (hnow : 0 ≤ now) :
    ∀ (tasks : List DownloadTask) (reg saves : List DownloadTask)
      (sched : List ScheduledItem),
      (load_downloads_go now (reg, saves, sched) tasks).1
        = reg ++ tasks.map (fun t =>
            if t.status = .DOWNLOADING then { t with status := .PAUSED }
            else t) ∧
      (load_downloads_go now (reg, saves, sched) tasks).2.1
        = saves ++ (tasks.filter (fun t => t.status = .DOWNLOADING)).map
            (fun t => { t with status := .PAUSED }) ∧
      ∀ q, (load_downloads_go now (reg, saves, sched) tasks).2.2.count q
        = sched.count q
          + ((tasks.filter (fun t => t.is_scheduled now)).map
              (fun t => (⟨t.scheduled_time.getD 0,
                if t.status = .DOWNLOADING
                  then { t with status := .PAUSED } else t⟩ :
                ScheduledItem))).count q := by
  intro tasks
  induction tasks with
  | nil =>
    intro reg saves sched
    simp [load_downloads_go]
  | cons t ts ih =>
    intro reg saves sched
    simp only [load_downloads_go]
    have hsched1 :
        (if ((if t.status = DownloadStatus.DOWNLOADING
              then { t with status := .PAUSED } else t).is_scheduled now)
          then (schedule_download sched
            (if t.status = DownloadStatus.DOWNLOADING
              then { t with status := .PAUSED } else t) now).2
          else sched)
        = (if t.is_scheduled now
          then (schedule_download sched
            (if t.status = DownloadStatus.DOWNLOADING
              then { t with status := .PAUSED } else t) now).2
          else sched) := by
      rw [fix_is_scheduled]
    rw [hsched1]
    obtain ⟨ih1, ih2, ih3⟩ := ih (reg ++ [if t.status = DownloadStatus.DOWNLOADING
        then { t with status := .PAUSED } else t])
      (if t.status = DownloadStatus.DOWNLOADING
        then saves ++ [{ t with status := .PAUSED }] else saves)
      (if t.is_scheduled now
        then (schedule_download sched
          (if t.status = DownloadStatus.DOWNLOADING
            then { t with status := .PAUSED } else t) now).2
        else sched)
    have hsaves1 :
        (if t.status = DownloadStatus.DOWNLOADING
          then saves ++ [if t.status = DownloadStatus.DOWNLOADING
            then { t with status := .PAUSED } else t]
          else saves)
        = (if t.status = DownloadStatus.DOWNLOADING
          then saves ++ [{ t with status := .PAUSED }] else saves) := by
      by_cases hdl : t.status = DownloadStatus.DOWNLOADING <;> simp [hdl]
    rw [hsaves1]
    refine ⟨?_, ?_, ?_⟩
    · rw [ih1, List.map_cons]
      simp
    · rw [ih2, List.filter_cons]
      by_cases hdl : t.status = DownloadStatus.DOWNLOADING <;>
        simp [hdl]
    · intro q
      rw [ih3 q, List.filter_cons]
      by_cases hs : t.is_scheduled now
      · simp only [hs, eq_self_iff_true, if_true]
        have hex : ∃ st, t.scheduled_time = some st ∧ now < st := by
          unfold DownloadTask.is_scheduled at hs
          cases hst2 : t.scheduled_time with
          | none => rw [hst2] at hs; exact absurd hs (by simp)
          | some st => rw [hst2] at hs; exact ⟨st, rfl, by simpa using hs⟩
        obtain ⟨st, hst, hlt⟩ := hex
        have hpush := schedule_download_push sched
          (if t.status = DownloadStatus.DOWNLOADING
            then { t with status := .PAUSED } else t) now st
          (by rw [fix_scheduled_time]; exact hst) hlt (by omega)
        rw [hpush]
        rw [heappush_count]
        rw [List.map_cons, List.count_cons, List.count_cons]
        have hgd : t.scheduled_time.getD 0 = st := by rw [hst]; rfl
        rw [hgd]
        omega
      · simp only [hs, Bool.false_eq_true, if_false]

/-- C7: on startup recovery, the registry receives every persisted task
with Downloading rewritten to Paused and every other status unchanged;
exactly the rewritten (formerly Downloading) tasks are re-persisted, in
load order; and, for a non-negative clock, exactly the loaded tasks whose
`scheduled_time` is strictly in the future are handed to the scheduler
heap (as `(scheduled_time, task)` entries carrying the possibly-rewritten
task). -/
theorem c7_startup_recovery (now : Int) (hnow : 0 ≤ now)
    (sched₀ : List ScheduledItem) (tasks : List DownloadTask) :
    (load_downloads now sched₀ tasks).1
      = tasks.map (fun t =>
          if t.status = .DOWNLOADING then { t with status := .PAUSED }
          else t) ∧
    (∀ t ∈ tasks, t.status ≠ .DOWNLOADING →
      (if t.status = .DOWNLOADING then { t with status := .PAUSED } else t)
        = t) ∧
    (load_downloads now sched₀ tasks).2.1
      = (tasks.filter (fun t => t.status = .DOWNLOADING)).map
          (fun t => { t with status := .PAUSED }) ∧
    ∀ q, (load_downloads now sched₀ tasks).2.2.count q
      = sched₀.count q
        + ((tasks.filter (fun t => t.is_scheduled now)).map
            (fun t => (⟨t.scheduled_time.getD 0,
              if t.status = .DOWNLOADING
                then { t with status := .PAUSED } else t⟩ :
              ScheduledItem))).count q := by
  obtain ⟨h1, h2, h3⟩ := load_go_spec now hnow tasks [] [] sched₀
  refine ⟨by simpa using h1, ?_, by simpa using h2, h3⟩
  intro t ht hdl
  rw [if_neg hdl]

/-- C7 witness: loading a Downloading task, a Completed task and a
future-scheduled Pending task (now = 0): the first is rewritten to Paused
and re-persisted, the second is untouched, the third is handed to the
scheduler. -/
theorem c7_witness :
    (load_downloads 0 [] [{ exTask "w1" 0 with status := .DOWNLOADING },
        doneTask, schedTask]).1
      = [{ exTask "w1" 0 with status := .PAUSED }, doneTask, schedTask] ∧
    (load_downloads 0 [] [{ exTask "w1" 0 with status := .DOWNLOADING },
        doneTask, schedTask]).2.1
      = [{ exTask "w1" 0 with status := .PAUSED }] ∧
    (load_downloads 0 [] [{ exTask "w1" 0 with status := .DOWNLOADING },
        doneTask, schedTask]).2.2.count ⟨50, schedTask⟩ = 1 := by
  have h := c7_startup_recovery 0 (by decide) []
    [{ exTask "w1" 0 with status := .DOWNLOADING }, doneTask, schedTask]
  refine ⟨by rw [h.1]; decide, by rw [h.2.2.1]; decide, ?_⟩
  rw [h.2.2.2 ⟨50, schedTask⟩]
  decide

/-! ## C5: merge writes to the original name, overwriting -/

/-- The temp-file paths of a task's parts, in part order. -/
def taskTempPaths (task : DownloadTask) : List String :=
  task.parts.filterMap (fun part => part.temp_file_path)

/-- The concatenation of the temp files' contents, in order. -/
def mergedBytes (fs : FS) (tmps : List String) : List Nat :=
  tmps.foldl (fun acc p => acc ++ (fs p).getD []) []

lemma foldl_bytes_factor (f : FS) : ∀ (tmps : List String) (acc : List Nat),
    tmps.foldl (fun a p => a ++ (f p).getD []) acc
      = acc ++ tmps.foldl (fun a p => a ++ (f p).getD []) [] := by
  intro tmps
  induction tmps with
  | nil => intro acc; simp
  | cons p rest ih =>
    intro acc
    rw [List.foldl_cons, List.foldl_cons, ih (acc ++ (f p).getD []),
      ih (List.nil ++ (f p).getD [])]
    simp

lemma foldl_bytes_congr : ∀ (tmps : List String) (f g : FS) (acc : List Nat),
    (∀ p ∈ tmps, f p = g p) →
    tmps.foldl (fun a p => a ++ (f p).getD []) acc
      = tmps.foldl (fun a p => a ++ (g p).getD []) acc := by
  intro tmps
  induction tmps with
  | nil => intro f g acc _; rfl
  | cons p rest ih =>
    intro f g acc h
    rw [List.foldl_cons, List.foldl_cons,
      h p (List.mem_cons_self p rest),
      ih f g _ (fun q hq => h q (List.mem_cons_of_mem p hq))]

lemma mergeLoop_spec : ∀ (tmps : List String) (fs : FS) (out : String),
    out ∉ tmps → (∀ p ∈ tmps, (fs p).isSome) → (fs out).isSome →
    (mergeLoop fs out tmps).1 = true ∧
    (∀ q, q ≠ out → (mergeLoop fs out tmps).2 q = fs q) ∧
    (mergeLoop fs out tmps).2 out
      = some ((fs out).getD [] ++ mergedBytes fs tmps) := by
  intro tmps
  induction tmps with
  | nil =>
    intro fs out _ _ hsome
    obtain ⟨v, hv⟩ := Option.isSome_iff_exists.mp hsome
    exact ⟨rfl, fun q _ => rfl, by simp [mergeLoop, mergedBytes, hv]⟩
  | cons p rest ih =>
    intro fs out hout hex hsome
    have hp : (fs p).isSome := hex p (List.mem_cons_self p rest)
    obtain ⟨bytes, hbytes⟩ := Option.isSome_iff_exists.mp hp
    have hpne : p ≠ out := fun h => hout (h ▸ List.mem_cons_self p rest)
    have hfs1q : ∀ q, q ≠ out → fsAppendFile fs out bytes q = fs q := by
      intro q hq
      unfold fsAppendFile fsWrite
      rw [if_neg hq]
    have hfs1out : fsAppendFile fs out bytes out
        = some ((fs out).getD [] ++ bytes) := by
      unfold fsAppendFile fsWrite
      rw [if_pos rfl]
    simp only [mergeLoop, hbytes]
    have hout' : out ∉ rest := fun h => hout (List.mem_cons_of_mem p h)
    obtain ⟨m1, m2, m3⟩ := ih (fsAppendFile fs out bytes) out hout'
      (fun q hq => by
        rw [hfs1q q (fun h => hout' (h ▸ hq))]
        exact hex q (List.mem_cons_of_mem p hq))
      (by rw [hfs1out]; rfl)
    refine ⟨m1, ?_, ?_⟩
    · intro q hq
      rw [m2 q hq, hfs1q q hq]
    · rw [m3, hfs1out]
      have hmb : mergedBytes (fsAppendFile fs out bytes) rest
          = mergedBytes fs rest := by
        unfold mergedBytes
        exact foldl_bytes_congr rest _ _ []
          (fun q hq => hfs1q q (fun h => hout' (h ▸ hq)))
      rw [hmb]
      have hmb2 : mergedBytes fs (p :: rest)
          = bytes ++ mergedBytes fs rest := by
        unfold mergedBytes
        rw [List.foldl_cons, foldl_bytes_factor fs rest]
        simp [hbytes]
      rw [hmb2]
      simp

lemma merge_temp_files_spec (fs : FS) (tmps : List String) (out : String)
    (hout : out ∉ tmps) (hex : ∀ p ∈ tmps, (fs p).isSome) :
    (merge_temp_files fs tmps out).1 = true ∧
    (∀ q, q ≠ out → (merge_temp_files fs tmps out).2 q = fs q) ∧
    (merge_temp_files fs tmps out).2 out = some (mergedBytes fs tmps) := by
  unfold merge_temp_files
  have h1 : ∀ p ∈ tmps, fsWrite fs out [] p = fs p := by
    intro p hp
    unfold fsWrite
    rw [if_neg (fun h => hout (by rw [← h]; exact hp))]
  obtain ⟨m1, m2, m3⟩ := mergeLoop_spec tmps (fsWrite fs out []) out hout
    (fun p hp => by rw [h1 p hp]; exact hex p hp)
    (by unfold fsWrite; rw [if_pos rfl]; rfl)
  refine ⟨m1, ?_, ?_⟩
  · intro q hq
    rw [m2 q hq]
    unfold fsWrite
    rw [if_neg hq]
  · rw [m3]
    have h2 : (fsWrite fs out [] out).getD ([] : List Nat) = [] := by
      unfold fsWrite
      rw [if_pos rfl]
      rfl
    rw [h2]
    have h3 : mergedBytes (fsWrite fs out []) tmps = mergedBytes fs tmps := by
      unfold mergedBytes
      exact foldl_bytes_congr tmps _ _ [] h1
    rw [h3]
    simp

lemma cleanup_not_mem : ∀ (tmps : List String) (fs : FS) (q : String),
    q ∉ tmps → cleanup_temp_files fs tmps q = fs q := by
  intro tmps
  induction tmps with
  | nil => intro fs q _; rfl
  | cons p rest ih =>
    intro fs q h
    unfold cleanup_temp_files
    rw [List.foldl_cons]
    have h2 := ih (fsRemove fs p) q (fun hq => h (List.mem_cons_of_mem p hq))
    unfold cleanup_temp_files at h2
    rw [h2]
    unfold fsRemove
    rw [if_neg (fun hq => h (by rw [hq]; exact List.mem_cons_self p rest))]

lemma temp_filter_eq (fs : FS) : ∀ (parts : List DownloadPart),
    (∀ p ∈ parts.filterMap (fun part => part.temp_file_path),
      p ≠ "" ∧ (fs p).isSome) →
    parts.filterMap (fun part =>
      match part.temp_file_path with
      | some p => if p ≠ "" ∧ (fs p).isSome then some p else none
      | none => none) = parts.filterMap (fun part => part.temp_file_path) := by
  intro parts
  induction parts with
  | nil => intro _; rfl
  | cons part rest ih =>
    intro h
    cases hp : part.temp_file_path with
    | none =>
      simp only [List.filterMap_cons, hp]
      exact ih (fun q hq => h q (by
        simp only [List.filterMap_cons, hp]
        exact hq))
    | some p =>
      simp only [List.filterMap_cons, hp]
      have hmem : p ∈ (part :: rest).filterMap
          (fun part => part.temp_file_path) := by
        simp only [List.filterMap_cons, hp]
        exact List.mem_cons_self p _
      rw [if_pos (h p hmem)]
      rw [ih (fun q hq => h q (by
        simp only [List.filterMap_cons, hp]
        exact List.mem_cons_of_mem p hq))]

/-- C5 (amended): at merge time `_complete_download` joins the
destination directory with the task's CURRENT filename and
`merge_temp_files` opens exactly that path with mode `wb` — overwriting
any file already there. No collision probing happens on this path (the
`<stem> (k)<ext>` logic lives only in `_resolve_filename_conflict`,
reached solely from `move_to_final_location`, which the merge path never
calls) and the task record keeps its original filename. On the success
path the final file at `destination/filename` holds exactly the merged
bytes, whatever was there before. -/
theorem c5_merge_overwrites_original_name (categoryDir : String → String)
    (now : Int) (fs : FS) (task : DownloadTask) (d : String)
    (hdest : task.destination = some d) (hd : d ≠ "")
    (hne : taskTempPaths task ≠ [])
    (hex : ∀ p ∈ taskTempPaths task, p ≠ "" ∧ (fs p).isSome)
    (hout : pathJoin d task.filename ∉ taskTempPaths task)
    (hsize : ((mergedBytes fs (taskTempPaths task)).length : Int)
      = task.file_size) :
    complete_download categoryDir now fs task
      = (DownloadTask.complete { task with destination := some d } now,
         cleanup_temp_files
           ((merge_temp_files fs (taskTempPaths task)
              (pathJoin d task.filename)).2)
           (taskTempPaths task)) ∧
    (complete_download categoryDir now fs task).1.filename = task.filename ∧
    (complete_download categoryDir now fs task).1.status = .COMPLETED ∧
    (complete_download categoryDir now fs task).2 (pathJoin d task.filename)
      = some (mergedBytes fs (taskTempPaths task)) := by
  have htf := temp_filter_eq fs task.parts hex
  obtain ⟨m1, m2, m3⟩ := merge_temp_files_spec fs (taskTempPaths task)
    (pathJoin d task.filename) hout (fun p hp => (hex p hp).2)
  have hmain : complete_download categoryDir now fs task
      = (DownloadTask.complete { task with destination := some d } now,
         cleanup_temp_files
           ((merge_temp_files fs (taskTempPaths task)
              (pathJoin d task.filename)).2)
           (taskTempPaths task)) := by
    unfold complete_download
    rw [htf]
    rw [show List.filterMap (fun part => part.temp_file_path) task.parts
      = taskTempPaths task from rfl]
    rw [if_neg (by
      rw [List.isEmpty_iff]
      exact hne)]
    simp only [hdest]
    rw [if_neg hd]
    rw [if_pos m1]
    have hver : verify_file_integrity
        (merge_temp_files fs (taskTempPaths task)
          (pathJoin d task.filename)).2
        (pathJoin d task.filename) task.file_size = true := by
      unfold verify_file_integrity
      rw [m3]
      simpa using hsize
    rw [if_pos hver]
  refine ⟨hmain, ?_, ?_, ?_⟩
  · rw [hmain]
    simp [DownloadTask.complete]
  · rw [hmain]
    simp [DownloadTask.complete]
  · rw [hmain]
    have hcl := cleanup_not_mem (taskTempPaths task)
      ((merge_temp_files fs (taskTempPaths task)
        (pathJoin d task.filename)).2)
      (pathJoin d task.filename) hout
    exact hcl.trans m3

/-- A task whose single completed part sits in temp file "t0", destined
for directory "d" under filename "f.txt". -/
def c5Task : DownloadTask :=
  { exTask "c5" 0 with
      filename := "f.txt", destination := some "d", file_size := 2,
      parts := [{ part_number := 0, start_byte := 0, end_byte := 1,
                  downloaded_bytes := 2, status := .COMPLETED,
                  temp_file_path := some "t0" }] }

/-- A file system where the final path "d/f.txt" already exists (content
[9]) and the temp file "t0" holds the downloaded bytes [1, 2]. -/
def c5FS : FS := fun q =>
  if q = "t0" then some [1, 2]
  else if q = "d/f.txt" then some [9] else none

/-- C5 counterexample: with "d/f.txt" already present, the merge
overwrites it in place with the downloaded bytes, no "d/f (1).txt" is
created, and the task keeps the filename "f.txt" — the claimed
collision resolution and record update do not happen. -/
theorem c5_collision_counterexample :
    c5FS "d/f.txt" = some [9] ∧
    (complete_download (fun _ => "") 7 c5FS c5Task).1.filename = "f.txt" ∧
    (complete_download (fun _ => "") 7 c5FS c5Task).1.status = .COMPLETED ∧
    (complete_download (fun _ => "") 7 c5FS c5Task).2 "d/f.txt"
      = some [1, 2] ∧
    (complete_download (fun _ => "") 7 c5FS c5Task).2 "d/f (1).txt"
      = none := by
  refine ⟨by decide, by decide, by decide, by decide, by decide⟩

/-- C5 witness: the amended theorem applied to the same concrete
scenario. -/
theorem c5_witness :
    (complete_download (fun _ => "") 7 c5FS c5Task).1.filename
      = c5Task.filename ∧
    (complete_download (fun _ => "") 7 c5FS c5Task).1.status = .COMPLETED ∧
    (complete_download (fun _ => "") 7 c5FS c5Task).2
        (pathJoin "d" c5Task.filename)
      = some (mergedBytes c5FS (taskTempPaths c5Task)) := by
  have h := c5_merge_overwrites_original_name (fun _ => "") 7 c5FS c5Task "d"
    (by decide) (by decide) (by decide)
    (by intro p hp; simp [taskTempPaths, c5Task, exTask] at hp; subst hp; decide)
    (by decide) (by decide)
  exact ⟨h.2.1, h.2.2.1, h.2.2.2⟩
